import Mathlib

/-!
Verification development for the toolbox repository: a typed slot-allocator
arena (src/arena/typed.rs), a generational arena (src/arena/generational.rs),
and a directed graph built on the typed arena (src/graph/mod.rs).

Modelling conventions.  Rust machine integers (u32/usize) are modelled as Nat:
every quantity involved (slot numbers, lengths, capacities) stays far below
2^32 in all behaviour the claims exercise, and no wrapping arithmetic occurs on
the executed paths.  A Rust panic has no return value, so an operation that can
panic is modelled as returning an Option, with none meaning the call aborts.
The source stores free-list pointers as Option of NonZeroU32; we model the
pointer as Option Nat and make an operation that would have to dereference a
stored 0 return none as well, since no Rust state holds such a pointer.
-/

namespace Typed

/-- Minimum capacity for an Arena (typed.rs, MIN_CAPACITY = 16). -/
def MIN_CAPACITY : Nat := 16

/-- typed.rs Entry: a slot is Vacant, holding the pointer to the next free
slot (Option of NonZeroU32 in the source), or Occupied, holding one value. -/
inductive Entry (T : Type) where
  | Vacant (next : Option Nat)
  | Occupied (item : T)
deriving DecidableEq

/-- typed.rs Index: an index into an Arena, wrapping a NonZeroU32. -/
structure Index where
  val : Nat
deriving DecidableEq

/-- typed.rs Arena.  data is the backing Vec of entries; cap models the Vec's
allocated capacity (data.capacity() in the source), which can exceed
data.length. -/
structure Arena (T : Type) where
  data : List (Entry T)
  cap : Nat
deriving DecidableEq

variable {T : Type}

/-- Models Vec::reserve on the capacity: unchanged when the slack already
covers the request, otherwise amortized growth to the larger of double the old
capacity and the required capacity.  (RawVec additionally rounds tiny nonzero
capacities up to a small constant; that clamp never binds at the capacities
arising here, which are at least 17 after construction.) -/
def vecReserve (len cap additional : Nat) : Nat :=
  if len + additional ≤ cap then cap else max (2 * cap) (len + additional)

/-- typed.rs get_free: read the free-list head out of slot 0. -/
def get_free (a : Arena T) : Option Nat :=
  match a.data[0]? with
  | some (Entry.Vacant next) => next
  | _ => none

/-- typed.rs set_free: data[0] = Vacant(next).  Every caller in the source
invokes it on a nonempty data vector, where the write cannot fail. -/
def set_free (a : Arena T) (next : Option Nat) : Arena T :=
  { a with data := a.data.set 0 (.Vacant next) }

/-- typed.rs reserve: append entries for n - 1 further slots, each Vacant and
pointing at the slot after it, overwrite the last entry to point at the old
free head, and point the free head at the first new slot.  Returns none
exactly when the source panics: on empty data the final
NonZeroU32::new(start).unwrap() has start = 0 (and with n = 0 the
last_mut().unwrap() fails first). -/
def reserve (a : Arena T) (n : Nat) : Option (Arena T) :=
  if a.data.length = 0 then none
  else
    let start := a.data.length
    let head := get_free a
    let cap1 := vecReserve a.data.length a.cap n
    let data1 := a.data ++ (List.range (n - 1)).map (fun i => Entry.Vacant (some (start + i + 1)))
    let data2 := data1.set (data1.length - 1) (.Vacant head)
    some (set_free { data := data2, cap := cap1 } (some start))

/-- typed.rs capacity: data.capacity() - 1, discounting the reserved slot 0. -/
def capacity (a : Arena T) : Nat := a.cap - 1

/-- typed.rs try_insert: pop the free head; Err(item) when the free list is
empty, otherwise write Occupied into the popped slot and advance the head to
that slot's former next pointer.  none where the source panics (the popped
slot is Occupied: the "Corrupted arena!" branch, or its index is out of
bounds) or where the stored head is an unrepresentable 0. -/
def try_insert (a : Arena T) (item : T) : Option (Except T (Index × Arena T)) :=
  match get_free a with
  | none => some (.error item)
  | some free =>
    if free = 0 then none
    else
      match a.data[free]? with
      | some (.Vacant next) =>
        some (.ok (⟨free⟩, set_free { a with data := a.data.set free (.Occupied item) } next))
      | some (.Occupied _) => none
      | none => none

/-- typed.rs reserve_insert: reserve capacity() further slots, then retry the
insertion; none where the source panics (including the "Out of memory"
expect on a second rejection). -/
def reserve_insert (a : Arena T) (item : T) : Option (Index × Arena T) :=
  match reserve a (capacity a) with
  | none => none
  | some a1 =>
    match try_insert a1 item with
    | some (.ok r) => some r
    | _ => none

/-- typed.rs insert: try_insert, growing the arena and retrying on rejection. -/
def insert (a : Arena T) (item : T) : Option (Index × Arena T) :=
  match try_insert a item with
  | some (.ok r) => some r
  | some (.error it) => reserve_insert a it
  | none => none

/-- typed.rs remove: replace the slot with Vacant(current free head); if the
old entry was Occupied, push the slot onto the free head and return the value;
if it was Vacant, write the old entry back (a net no-op) and return None.
none where the source panics (index out of bounds). -/
def remove (a : Arena T) (index : Index) : Option (Option T × Arena T) :=
  match a.data[index.val]? with
  | none => none
  | some (.Occupied item) =>
      some (some item,
        set_free { a with data := a.data.set index.val (.Vacant (get_free a)) } (some index.val))
  | some (.Vacant _) => some (none, a)

/-- typed.rs get. -/
def get (a : Arena T) (index : Index) : Option T :=
  match a.data[index.val]? with
  | some (.Occupied t) => some t
  | _ => none

/-- typed.rs with_capacity: start from the single reserved slot 0, then
reserve max n MIN_CAPACITY slots.  The reserve cannot fail here (data is
nonempty), so the fallback branch is dead. -/
def with_capacity (T : Type) (n : Nat) : Arena T :=
  match reserve { data := [Entry.Vacant none], cap := 1 } (max n MIN_CAPACITY) with
  | some a => a
  | none => { data := [Entry.Vacant none], cap := 1 }

/-- Models a write through get_mut(i).unwrap() followed by storing f of the
referenced value: none when the source would panic on the unwrap (slot vacant
or out of bounds). -/
def modify (a : Arena T) (i : Index) (f : T → T) : Option (Arena T) :=
  match a.data[i.val]? with
  | some (.Occupied t) => some { a with data := a.data.set i.val (.Occupied (f t)) }
  | _ => none

/-- An arena operation from the public surface claims quantify over. -/
inductive AOp (T : Type) where
  | insert (item : T)
  | tryInsert (item : T)
  | remove (index : Index)

/-- Run one operation; none where the source aborts. A rejected tryInsert
hands the value back and leaves the arena as it was. -/
def applyAOp (a : Arena T) : AOp T → Option (Arena T)
  | .insert x => (insert a x).map Prod.snd
  | .tryInsert x =>
    match try_insert a x with
    | some (.ok (_, a1)) => some a1
    | some (.error _) => some a
    | none => none
  | .remove i => (remove a i).map Prod.snd

/-- Run a sequence of operations from a starting arena. -/
def applyAOps : Arena T → List (AOp T) → Option (Arena T)
  | a, [] => some a
  | a, op :: ops =>
    match applyAOp a op with
    | none => none
    | some a1 => applyAOps a1 ops

/-- Chain data p l: following next pointers from p through Vacant entries
visits the slots l in order and terminates at None. -/
inductive Chain (data : List (Entry T)) : Option Nat → List Nat → Prop where
  | nil : Chain data none []
  | cons {i : Nat} {next : Option Nat} {l : List Nat} :
      data[i]? = some (.Vacant next) → Chain data next l → Chain data (some i) (i :: l)

/-- The free-list property: slot 0 exists and holds the head pointer;
following next pointers from the head terminates at None, visits no slot
twice, and visits exactly the currently vacant slots other than slot 0. -/
def FreeListSpec (a : Arena T) : Prop :=
  ∃ hd l, a.data[0]? = some (.Vacant hd) ∧ Chain a.data hd l ∧ l.Nodup ∧
    ∀ i, (i ≠ 0 ∧ ∃ nx, a.data[i]? = some (Entry.Vacant nx)) ↔ i ∈ l

/-- Executable free-list walk with fuel: follow next pointers through Vacant
entries from p. -/
def chainF (data : List (Entry T)) : Nat → Option Nat → List Nat
  | 0, _ => []
  | _, none => []
  | fuel + 1, some i =>
    match data[i]? with
    | some (.Vacant next) => i :: chainF data fuel next
    | _ => []

/-- The slots on the free list, walked executably from the head with fuel
data.length (enough for any duplicate-free chain). -/
def freeChainList (a : Arena T) : List Nat :=
  chainF a.data a.data.length (get_free a)

/-- The state in which the next try_insert hits the "Corrupted arena!" panic:
the free-list head names a slot that is actually Occupied. -/
def corruptionPanic (a : Arena T) : Prop :=
  ∃ f v, get_free a = some f ∧ a.data[f]? = some (Entry.Occupied v)

end Typed

namespace Gen

/-- generational.rs Entry: Vacant holds the next free pointer, Occupied holds
a generation count (u8 in the source) and a value. -/
inductive Entry (T : Type) where
  | Vacant (next : Option Nat)
  | Occupied (gen : Nat) (item : T)
deriving DecidableEq

/-- generational.rs Arena.  len is declared in the source, initialized to 0 by
with_capacity and never updated by any operation. -/
structure Arena (T : Type) where
  data : List (Entry T)
  len : Nat
deriving DecidableEq

/-- generational.rs Index: a NonZeroU32 with the generation in the high 8
bits and the slot in the low 24 bits. -/
structure Index where
  val : Nat
deriving DecidableEq

/-- generational.rs Index::pair: (generation, slot).  The slot mask !mask in
u32 is 0x00FFFFFF. -/
def Index.pair (i : Index) : Nat × Nat :=
  ((i.val &&& 0xFF000000) >>> 24, i.val &&& 0x00FFFFFF)

variable {T : Type}

/-- generational.rs next_free. -/
def next_free (a : Arena T) : Option Nat :=
  match a.data[0]? with
  | some (Entry.Vacant next) => next
  | _ => none

/-- generational.rs set_free: data[0] = Vacant(Some(index)). -/
def set_free (a : Arena T) (index : Nat) : Arena T :=
  { a with data := a.data.set 0 (.Vacant (some index)) }

/-- generational.rs get: a hit requires the slot Occupied with a stored
generation equal to the handle's generation. -/
def get (a : Arena T) (index : Index) : Option T :=
  match a.data[index.pair.2]? with
  | some (.Occupied g val) => if g = index.pair.1 then some val else none
  | _ => none

/-- generational.rs try_insert: the Option<Index> the source returns, paired
with the updated arena.  On an empty free list the result is None and the
arena is untouched; the rejected value is not part of the result.  The outer
none marks the source panicking ("Corrupted free list", or an out-of-bounds
slot) or dereferencing an unrepresentable stored 0.  A successful insertion
always writes generation 0. -/
def try_insert (a : Arena T) (item : T) : Option (Option Index × Arena T) :=
  match next_free a with
  | none => some (none, a)
  | some idx =>
    if idx = 0 then none
    else
      match a.data[idx]? with
      | some (.Occupied _ _) => none
      | some (.Vacant next) =>
        let a1 : Arena T := { a with data := a.data.set 0 (.Vacant next) }
        some (some ⟨idx⟩, { a1 with data := a1.data.set idx (.Occupied 0 item) })
      | none => none

/-- generational.rs reserve: extend by n entries, the last pointing at the old
free head and the others chaining upward, then point the head at the first new
slot; none where NonZeroU32::new(start).unwrap() panics (empty data). -/
def reserve (a : Arena T) (n : Nat) : Option (Arena T) :=
  if a.data.length = 0 then none
  else
    let start := a.data.length
    let free := next_free a
    let ext := (List.range n).map (fun i =>
      if start + i = start + n - 1 then Entry.Vacant free
      else Entry.Vacant (some (start + i + 1)))
    some (set_free { a with data := a.data ++ ext } start)

/-- generational.rs with_capacity: assert the slot bits of n fit in 24 bits,
then reserve n slots; none where the assert or the reserve panics. -/
def with_capacity (T : Type) (n : Nat) : Option (Arena T) :=
  if n &&& 0xFF000000 ≠ 0 then none
  else reserve { data := [Entry.Vacant none], len := 0 } n

/-- Modelled from the spec: generational.rs contains no remove (the Arena
trait in arena/mod.rs declares one, but the generational variant never
implements it).  Following spec section 4.1: a vacant slot or a generation
mismatch returns not-found without touching storage; an occupied slot with a
matching generation yields its value, is marked Vacant with next = the current
free-list head, and is pushed onto the free-list head.  The spec also says to
increment the slot's generation for the next reuse, but the source's
Entry::Vacant stores only a next pointer, so the incremented generation has
nowhere to live, and the source's try_insert stamps generation 0
unconditionally on every insertion regardless. -/
def remove (a : Arena T) (index : Index) : Option (T × Arena T) :=
  match a.data[index.pair.2]? with
  | some (.Occupied g item) =>
    if g = index.pair.1 then
      let a1 : Arena T := { a with data := a.data.set index.pair.2 (.Vacant (next_free a)) }
      some (item, set_free a1 index.pair.2)
    else none
  | _ => none

end Gen

/-! Shallow embedding of src/graph/mod.rs.  The graph stores vertices and
edges in two typed arenas; 2-element arrays indexed by Direction::index() are
modelled as pairs selected by dirGet. -/

/-- graph/mod.rs Direction. -/
inductive Direction where
  | Outgoing
  | Incoming
deriving DecidableEq

/-- graph/mod.rs Direction::index. -/
def Direction.index : Direction → Nat
  | .Outgoing => 0
  | .Incoming => 1

/-- Select the component of a 2-element array at position d.index(). -/
def dirGet (d : Direction) (p : α × α) : α :=
  match d with
  | .Outgoing => p.1
  | .Incoming => p.2

/-- graph/mod.rs EdgeIndex: an optional typed-arena index. -/
structure EdgeIndex where
  val : Option Typed.Index
deriving DecidableEq

/-- graph/mod.rs VertexIndex. -/
structure VertexIndex where
  val : Typed.Index
deriving DecidableEq

/-- graph/mod.rs Edge: endpoint pair (source, destination) and per-direction
next links, threaded intrusively through the edge arena. -/
structure Edge (E : Type) where
  vertices : VertexIndex × VertexIndex
  next : EdgeIndex × EdgeIndex
  data : E
deriving DecidableEq

/-- graph/mod.rs Edge::vertex: vertices[dir.index()]. -/
def Edge.vertex (e : Edge E) (d : Direction) : VertexIndex := dirGet d e.vertices

/-- graph/mod.rs Edge::next_edge: next[dir.index()]. -/
def Edge.next_edge (e : Edge E) (d : Direction) : EdgeIndex := dirGet d e.next

/-- The observable content of an edge: its endpoint pair and its data. -/
def Edge.record (e : Edge E) : VertexIndex × VertexIndex × E :=
  (e.vertices.1, e.vertices.2, e.data)

/-- graph/mod.rs Vertex: two adjacency-list heads and the payload. -/
structure Vertex (V : Type) where
  edges : EdgeIndex × EdgeIndex
  data : V
deriving DecidableEq

/-- graph/mod.rs Vertex::new: both heads empty. -/
def Vertex.new (data : V) : Vertex V := { edges := (⟨none⟩, ⟨none⟩), data }

/-- graph/mod.rs Vertex::edge: edges[dir.index()]. -/
def Vertex.edge (v : Vertex V) (d : Direction) : EdgeIndex := dirGet d v.edges

/-- graph/mod.rs Graph: a vertex arena and an edge arena. -/
structure Graph (V E : Type) where
  arena : Typed.Arena (Vertex V)
  edges : Typed.Arena (Edge E)
deriving DecidableEq

/-- graph/mod.rs Graph::with_capacity: cap vertex slots, cap * 2 edge slots. -/
def Graph.with_capacity (V E : Type) (cap : Nat) : Graph V E :=
  { arena := Typed.with_capacity (Vertex V) cap
    edges := Typed.with_capacity (Edge E) (cap * 2) }

/-- graph/mod.rs add_vertex; none where the underlying insert aborts. -/
def Graph.add_vertex (g : Graph V E) (data : V) : Option (VertexIndex × Graph V E) :=
  match Typed.insert g.arena (Vertex.new data) with
  | some (i, arena1) => some (⟨i⟩, { g with arena := arena1 })
  | none => none

/-- graph/mod.rs add_edge: insert the edge with empty next links; swap its
handle ret = ⟨some idx⟩ in as the new Outgoing head of start and the new
Incoming head of finish; then store the two previous heads as the new edge's
next links.  outgoing is start's old edges[0], read by the first mem::replace
before it writes; incoming is finish's old edges[1], read by the second
mem::replace after the first write (which never touches edges[1]).  none where
an insert aborts or a get_mut(..).unwrap() fails on a vacant vertex handle. -/
def Graph.add_edge (g : Graph V E) (start finish : VertexIndex) (data : E) :
    Option (EdgeIndex × Graph V E) :=
  match Typed.insert g.edges { vertices := (start, finish), next := (⟨none⟩, ⟨none⟩), data } with
  | none => none
  | some (idx, edges1) =>
    match Typed.get g.arena start.val with
    | none => none
    | some vs =>
      match Typed.modify g.arena start.val (fun v => { v with edges := (⟨some idx⟩, v.edges.2) }) with
      | none => none
      | some arena1 =>
        match Typed.get arena1 finish.val with
        | none => none
        | some vf =>
          match Typed.modify arena1 finish.val
              (fun v => { v with edges := (v.edges.1, ⟨some idx⟩) }) with
          | none => none
          | some arena2 =>
            match Typed.modify edges1 idx
                (fun e => { e with next := (vs.edges.1, vf.edges.2) }) with
            | none => none
            | some edges2 => some (⟨some idx⟩, { arena := arena2, edges := edges2 })

/-- graph/mod.rs get_vertex. -/
def Graph.get_vertex (g : Graph V E) (index : VertexIndex) : Option (Vertex V) :=
  Typed.get g.arena index.val

/-- graph/mod.rs get_edge: self.edges.get(index.0?). -/
def Graph.get_edge (g : Graph V E) (index : EdgeIndex) : Option (Edge E) :=
  match index.val with
  | none => none
  | some i => Typed.get g.edges i

/-- A graph-building operation. -/
inductive GOp (V E : Type) where
  | addVertex (data : V)
  | addEdge (start finish : VertexIndex) (data : E)

/-- Run one graph operation; none where the source aborts. -/
def applyGOp (g : Graph V E) : GOp V E → Option (Graph V E)
  | .addVertex d => (Graph.add_vertex g d).map Prod.snd
  | .addEdge s f d => (Graph.add_edge g s f d).map Prod.snd

/-- Run a sequence of graph operations. -/
def applyGOps : Graph V E → List (GOp V E) → Option (Graph V E)
  | g, [] => some g
  | g, op :: ops =>
    match applyGOp g op with
    | none => none
    | some g1 => applyGOps g1 ops

/-- The records of the addEdge operations in ops that have v in the role
selected by d (the source endpoint for Outgoing, the destination for
Incoming), in operation order. -/
def expected (ops : List (GOp V E)) (v : VertexIndex) (d : Direction) :
    List (VertexIndex × VertexIndex × E) :=
  ops.filterMap fun op =>
    match op with
    | .addVertex _ => none
    | .addEdge s f dat => if dirGet d (s, f) = v then some (s, f, dat) else none

/-- The adjacency walk of spec section 4.2 over an edge arena es: dereference
the current handle, emit the edge's record, continue along its next link for
d, and stop at an empty link.  Walks es d h l says the walk from h terminates
and emits exactly l. -/
inductive Walks (es : Typed.Arena (Edge E)) (d : Direction) :
    EdgeIndex → List (VertexIndex × VertexIndex × E) → Prop where
  | nil : Walks es d ⟨none⟩ []
  | cons {i : Typed.Index} {e : Edge E} {l : List (VertexIndex × VertexIndex × E)} :
      Typed.get es i = some e →
      Walks es d (e.next_edge d) l →
      Walks es d ⟨some i⟩ (e.record :: l)

/-- The edge slot j is reachable from handle h by the walk for direction d. -/
inductive InWalk (es : Typed.Arena (Edge E)) (d : Direction) :
    EdgeIndex → Typed.Index → Prop where
  | here (i : Typed.Index) : InWalk es d ⟨some i⟩ i
  | there {i j : Typed.Index} {e : Edge E} :
      Typed.get es i = some e →
      InWalk es d (e.next_edge d) j →
      InWalk es d ⟨some i⟩ j

/-- The construction invariant for reachable graphs, relative to the history
ops: slot 0 of both arenas is vacant; a vertex slot that is not live has no
addEdge history naming it; and every live vertex's adjacency walk for each
direction emits exactly the reversed records of the addEdge operations with
that vertex in the corresponding role. -/
def GraphInv (g : Graph V E) (ops : List (GOp V E)) : Prop :=
  (∃ nx, g.arena.data[0]? = some (Typed.Entry.Vacant nx)) ∧
  (∃ nx, g.edges.data[0]? = some (Typed.Entry.Vacant nx)) ∧
  (∀ v : VertexIndex, Typed.get g.arena v.val = none → ∀ d, expected ops v d = []) ∧
  (∀ (v : VertexIndex) (vert : Vertex V) (d : Direction),
    Typed.get g.arena v.val = some vert →
    Walks g.edges d (vert.edge d) (expected ops v d).reverse)

/-! Concrete states evaluated by the claim theorems and their witnesses. -/

/-- The typed arena obtained by inserting 42 into a fresh 16-capacity arena
(the value lands in slot 1). -/
def a1W : Typed.Arena Nat :=
  ((Typed.insert (Typed.with_capacity Nat 16) 42).map Prod.snd).getD (Typed.with_capacity Nat 16)

/-- a1W after removing handle 1 again. -/
def c6R : Typed.Arena Nat :=
  ((Typed.remove a1W ⟨1⟩).map Prod.snd).getD a1W

/-- The generational arena from with_capacity 16. -/
def g3a : Gen.Arena Nat := (Gen.with_capacity Nat 16).getD { data := [], len := 0 }

/-- g3a after inserting 5 (slot 1, generation 0, handle 1). -/
def g3b : Gen.Arena Nat := ((Gen.try_insert g3a 5).map Prod.snd).getD { data := [], len := 0 }

/-- g3b after removing handle 1. -/
def g3c : Gen.Arena Nat := ((Gen.remove g3b ⟨1⟩).map Prod.snd).getD { data := [], len := 0 }

/-- g3c after inserting 7, which reuses slot 1 and reissues handle 1. -/
def g3d : Gen.Arena Nat := ((Gen.try_insert g3c 7).map Prod.snd).getD { data := [], len := 0 }

/-- A full generational arena: one occupied slot and an empty free list. -/
def gFullW : Gen.Arena Nat := { data := [Gen.Entry.Vacant none, Gen.Entry.Occupied 0 9], len := 0 }

/-- A full typed arena: one occupied slot and an empty free list. -/
def tFullW : Typed.Arena Nat := { data := [Typed.Entry.Vacant none, Typed.Entry.Occupied 9], cap := 3 }

/-- A corrupted typed arena whose free head names an Occupied slot. -/
def aBadW : Typed.Arena Nat :=
  { data := [Typed.Entry.Vacant (some 1), Typed.Entry.Occupied 9], cap := 3 }

/-- A corrupted generational arena whose free head names an Occupied slot. -/
def gBadW : Gen.Arena Nat :=
  { data := [Gen.Entry.Vacant (some 1), Gen.Entry.Occupied 0 9], len := 0 }

/-- The result of reserving 16 further slots on a fresh 16-capacity arena. -/
def aRW : Typed.Arena Nat :=
  (Typed.reserve (Typed.with_capacity Nat 16) 16).getD (Typed.with_capacity Nat 16)

/-- A fresh 16-capacity arena after one insert and one remove. -/
def a5W : Typed.Arena Nat :=
  (Typed.applyAOps (Typed.with_capacity Nat 16) [Typed.AOp.insert 5, Typed.AOp.remove ⟨1⟩]).getD
    (Typed.with_capacity Nat 16)

/-- A fresh 20-capacity arena after inserting 3. -/
def c7B : Typed.Arena Nat :=
  ((Typed.insert (Typed.with_capacity Nat 20) 3).map Prod.snd).getD (Typed.with_capacity Nat 20)

/-- A small graph history: two vertices (slots 1 and 2) and one edge 1 → 2
carrying data 7. -/
def opsW : List (GOp Nat Nat) :=
  [GOp.addVertex 10, GOp.addVertex 20, GOp.addEdge ⟨⟨1⟩⟩ ⟨⟨2⟩⟩ 7]

/-- The graph built by opsW from a fresh capacity-16 graph. -/
def gW : Graph Nat Nat :=
  (applyGOps (Graph.with_capacity Nat Nat 16) opsW).getD (Graph.with_capacity Nat Nat 16)

/-- The vertex record of slot 1 in gW. -/
def vertW : Vertex Nat := (Typed.get gW.arena ⟨1⟩).getD (Vertex.new 0)

/-- The edge record of edge slot 1 in gW. -/
def eW : Edge Nat :=
  (Typed.get gW.edges ⟨1⟩).getD
    { vertices := (⟨⟨1⟩⟩, ⟨⟨1⟩⟩), next := (⟨none⟩, ⟨none⟩), data := 0 }

/-! General lemmas about the embedding follow. -/

namespace Typed

variable {T : Type}

theorem get_eq_some_iff {a : Arena T} {i : Index} {t : T} :
    get a i = some t ↔ a.data[i.val]? = some (.Occupied t) := by
  unfold get
  constructor
  · intro h
    split at h
    · next heq => cases h; exact heq
    · exact absurd h (by simp)
  · intro h
    rw [h]

theorem get_eq_none_of_vacant {a : Arena T} {i : Index} (nx : Option Nat)
    (h : a.data[i.val]? = some (.Vacant nx)) : get a i = none := by
  unfold get
  rw [h]

theorem get_eq_none_of_oob {a : Arena T} {i : Index}
    (h : a.data[i.val]? = none) : get a i = none := by
  unfold get
  rw [h]

theorem try_insert_ok_intro {a : Arena T} {x : T} {f : Nat} {next : Option Nat}
    (hf : get_free a = some f) (h0 : f ≠ 0)
    (hd : a.data[f]? = some (.Vacant next)) :
    try_insert a x =
      some (.ok (⟨f⟩, set_free { a with data := a.data.set f (.Occupied x) } next)) := by
  simp only [try_insert, hf, if_neg h0, hd]

theorem try_insert_ok_dest {a : Arena T} {x : T} {h : Index} {a1 : Arena T}
    (ht : try_insert a x = some (.ok (h, a1))) :
    get_free a = some h.val ∧ h.val ≠ 0 ∧
      ∃ next, a.data[h.val]? = some (.Vacant next) ∧
        a1 = set_free { a with data := a.data.set h.val (.Occupied x) } next := by
  unfold try_insert at ht
  split at ht
  · exact absurd ht (by simp)
  · next f hf =>
    split at ht
    · exact absurd ht (by simp)
    · next h0 =>
      split at ht
      · next next hd =>
        obtain ⟨rfl, rfl⟩ : (⟨f⟩ : Index) = h ∧
            set_free { a with data := a.data.set f (.Occupied x) } next = a1 := by
          simpa using ht
        exact ⟨hf, h0, next, hd, rfl⟩
      · exact absurd ht (by simp)
      · exact absurd ht (by simp)

theorem try_insert_err_dest {a : Arena T} {x y : T}
    (ht : try_insert a x = some (.error y)) : get_free a = none ∧ y = x := by
  unfold try_insert at ht
  split at ht
  · next hf =>
    refine ⟨hf, ?_⟩
    simpa [eq_comm] using ht
  · next f hf =>
    split at ht
    · exact absurd ht (by simp)
    · split at ht
      · exact absurd ht (by simp)
      · exact absurd ht (by simp)
      · exact absurd ht (by simp)

theorem try_insert_err_intro {a : Arena T} (x : T)
    (hf : get_free a = none) : try_insert a x = some (.error x) := by
  unfold try_insert
  rw [hf]

theorem remove_occ {a : Arena T} {i : Index} {v : T}
    (hd : a.data[i.val]? = some (.Occupied v)) :
    remove a i = some (some v,
      set_free { a with data := a.data.set i.val (.Vacant (get_free a)) } (some i.val)) := by
  unfold remove
  rw [hd]

theorem remove_vacant {a : Arena T} {i : Index} (nx : Option Nat)
    (hd : a.data[i.val]? = some (.Vacant nx)) :
    remove a i = some (none, a) := by
  unfold remove
  rw [hd]

theorem remove_some_dest {a : Arena T} {i : Index} {v : T} {a2 : Arena T}
    (hr : remove a i = some (some v, a2)) :
    a.data[i.val]? = some (.Occupied v) ∧
      a2 = set_free { a with data := a.data.set i.val (.Vacant (get_free a)) } (some i.val) := by
  unfold remove at hr
  split at hr
  · exact absurd hr (by simp)
  · next w hd =>
    obtain ⟨rfl, rfl⟩ : w = v ∧
        set_free { a with data := a.data.set i.val (.Vacant (get_free a)) } (some i.val) = a2 := by
      simpa using hr
    exact ⟨hd, rfl⟩
  · exact absurd hr (by simp)

theorem modify_some_dest {a : Arena T} {i : Index} {f : T → T} {a1 : Arena T}
    (hm : modify a i f = some a1) :
    ∃ t, a.data[i.val]? = some (.Occupied t) ∧
      a1 = { a with data := a.data.set i.val (.Occupied (f t)) } := by
  unfold modify at hm
  split at hm
  · next t hd => exact ⟨t, hd, by simpa [eq_comm] using hm⟩
  · exact absurd hm (by simp)

end Typed

namespace Typed

variable {T : Type}

theorem get_free_of_zero {a : Arena T} {nx : Option Nat}
    (h : a.data[0]? = some (.Vacant nx)) : get_free a = nx := by
  unfold get_free
  rw [h]

theorem set_free_data (a : Arena T) (nx : Option Nat) :
    (set_free a nx).data = a.data.set 0 (.Vacant nx) := rfl

theorem set_free_cap (a : Arena T) (nx : Option Nat) : (set_free a nx).cap = a.cap := rfl

theorem reserve_none_iff {a : Arena T} {n : Nat} :
    reserve a n = none ↔ a.data.length = 0 := by
  unfold reserve
  split
  · next h => simp [h]
  · next h => simp [h]

theorem reserve_some_dest {a : Arena T} {n : Nat} {ar : Arena T}
    (hr : reserve a n = some ar) :
    a.data.length ≠ 0 ∧
    ar.cap = vecReserve a.data.length a.cap n ∧
    ar.data.length = a.data.length + (n - 1) ∧
    ∀ j, ar.data[j]? =
      if j = 0 then some (.Vacant (some a.data.length))
      else if j = a.data.length + (n - 1) - 1 then some (.Vacant (get_free a))
      else if j < a.data.length then a.data[j]?
      else if j < a.data.length + (n - 1) then some (.Vacant (some (j + 1)))
      else none := by
  unfold reserve at hr
  split at hr
  · exact absurd hr (by simp)
  · next hlen =>
    simp only at hr
    obtain rfl := (Option.some.inj hr).symm
    have hL : (a.data ++ (List.range (n - 1)).map
        (fun i => Entry.Vacant (T := T) (some (a.data.length + i + 1)))).length =
        a.data.length + (n - 1) := by
      simp
    refine ⟨hlen, rfl, ?_, ?_⟩
    · rw [set_free_data]
      rw [List.length_set, List.length_set]
      exact hL
    · intro j
      rw [set_free_data]
      by_cases hj0 : j = 0
      · subst hj0
        rw [if_pos rfl]
        exact List.getElem?_set_eq_of_lt _ (by simp; omega)
      · rw [if_neg hj0, List.getElem?_set_ne (by omega)]
        by_cases hjlast : j = a.data.length + (n - 1) - 1
        · rw [if_pos hjlast]
          have hidx : (a.data ++ (List.range (n - 1)).map
              (fun i => Entry.Vacant (T := T) (some (a.data.length + i + 1)))).length - 1 = j := by
            rw [hL]
            omega
          rw [hidx]
          exact List.getElem?_set_eq_of_lt _ (by rw [hL]; omega)
        · rw [if_neg hjlast, List.getElem?_set_ne (by rw [hL]; omega)]
          by_cases hjold : j < a.data.length
          · rw [if_pos hjold, List.getElem?_append]
            rw [if_pos hjold]
          · rw [if_neg hjold]
            by_cases hjmid : j < a.data.length + (n - 1)
            · rw [if_pos hjmid, List.getElem?_append_right (by omega)]
              rw [List.getElem?_map, List.getElem?_range (by omega)]
              simp only [Option.map_some']
              congr 3
              omega
            · rw [if_neg hjmid]
              exact List.getElem?_eq_none (by rw [hL]; omega)

end Typed

namespace Typed

variable {T : Type}

theorem get_congr {a b : Arena T} {i : Index}
    (h : a.data[i.val]? = b.data[i.val]?) : get a i = get b i := by
  unfold get
  rw [h]

theorem try_insert_to_insert {a : Arena T} {x : T} {r : Index × Arena T}
    (h : try_insert a x = some (.ok r)) : insert a x = some r := by
  unfold insert
  rw [h]

theorem insert_some_dest {a : Arena T} {x : T} {h : Index} {a1 : Arena T}
    (hi : insert a x = some (h, a1)) :
    h.val ≠ 0 ∧ get a h = none ∧ get a1 h = some x ∧
      (∃ nx, a1.data[0]? = some (Entry.Vacant nx)) ∧
      (∀ j : Index, j.val ≠ 0 → j.val ≠ h.val → get a1 j = get a j) := by
  unfold insert at hi
  split at hi
  · -- try_insert succeeded directly
    next r heq =>
    obtain rfl : r = (h, a1) := by simpa using hi
    obtain ⟨hf, h0, next, hd, rfl⟩ := try_insert_ok_dest heq
    have hlt : h.val < a.data.length := (List.getElem?_eq_some.mp hd).1
    refine ⟨h0, get_eq_none_of_vacant _ hd, ?_, ?_, ?_⟩
    · apply get_eq_some_iff.mpr
      rw [set_free_data, List.getElem?_set_ne (by omega)]
      exact List.getElem?_set_eq_of_lt _ hlt
    · refine ⟨next, ?_⟩
      rw [set_free_data]
      exact List.getElem?_set_eq_of_lt _ (by simpa using by omega)
    · intro j hj0 hjh
      apply get_congr
      rw [set_free_data, List.getElem?_set_ne (by omega), List.getElem?_set_ne (by omega)]
  · -- rejection, then reserve and retry
    next it heq =>
    obtain ⟨hfree, hit⟩ := try_insert_err_dest heq
    unfold reserve_insert at hi
    split at hi
    · exact absurd hi (by simp)
    · next ar hres =>
      split at hi
      · next r heq2 =>
        obtain rfl : r = (h, a1) := by simpa using hi
        obtain ⟨hlen, hcap, hrlen, hdata⟩ := reserve_some_dest hres
        obtain ⟨hf2, h0, next2, hd2, ha1⟩ := try_insert_ok_dest heq2
        have hz := hdata 0
        rw [if_pos rfl] at hz
        have hfz : get_free ar = some a.data.length := get_free_of_zero hz
        have hhv : h.val = a.data.length := by
          rw [hf2] at hfz
          simpa using hfz
        have hn2 : 2 ≤ capacity a := by
          by_contra hlt
          have hone : capacity a - 1 = 0 := by omega
          have hh := hdata h.val
          rw [if_neg h0, hone, if_neg (by omega), if_neg (by omega), if_neg (by omega)] at hh
          rw [hd2] at hh
          exact absurd hh (by simp)
        have hlt2 : h.val < ar.data.length := (List.getElem?_eq_some.mp hd2).1
        refine ⟨h0, ?_, ?_, ?_, ?_⟩
        · exact get_eq_none_of_oob (List.getElem?_eq_none (by omega))
        · apply get_eq_some_iff.mpr
          rw [ha1, hit, set_free_data, List.getElem?_set_ne (by omega)]
          exact List.getElem?_set_eq_of_lt _ hlt2
        · refine ⟨next2, ?_⟩
          rw [ha1, set_free_data]
          exact List.getElem?_set_eq_of_lt _ (by simpa using by omega)
        · intro j hj0 hjh
          have hj1 : a1.data[j.val]? = ar.data[j.val]? := by
            rw [ha1, set_free_data, List.getElem?_set_ne (by omega),
              List.getElem?_set_ne (by omega)]
          have hj2 := hdata j.val
          rw [if_neg hj0] at hj2
          by_cases hjlast : j.val = a.data.length + (capacity a - 1) - 1
          · rw [if_pos hjlast, hfree] at hj2
            have hnone : get a j = none :=
              get_eq_none_of_oob (List.getElem?_eq_none (by omega))
            rw [hnone]
            unfold get
            rw [hj1, hj2]
          · rw [if_neg hjlast] at hj2
            by_cases hjold : j.val < a.data.length
            · rw [if_pos hjold] at hj2
              apply get_congr
              rw [hj1, hj2]
            · rw [if_neg hjold] at hj2
              have hnone : get a j = none :=
                get_eq_none_of_oob (List.getElem?_eq_none (by omega))
              rw [hnone]
              unfold get
              rw [hj1, hj2]
              split
              · next heq3 =>
                split at heq3
                · exact absurd heq3 (by simp)
                · exact absurd heq3 (by simp)
              · rfl
      · exact absurd hi (by simp)
  · exact absurd hi (by simp)

theorem insert_roundtrip_core {a1 : Arena T} {h : Index} {x : T}
    (h0 : h.val ≠ 0) (hd : a1.data[h.val]? = some (.Occupied x)) :
    get a1 h = some x ∧ ∃ a2, remove a1 h = some (some x, a2) ∧ get a2 h = none := by
  refine ⟨get_eq_some_iff.mpr hd, _, remove_occ hd, ?_⟩
  apply get_eq_none_of_vacant (get_free a1)
  rw [set_free_data, List.getElem?_set_ne (by omega)]
  exact List.getElem?_set_eq_of_lt _ (List.getElem?_eq_some.mp hd).1

end Typed

namespace Typed

variable {T : Type}

theorem chain_mem_vacant {data : List (Entry T)} {hd : Option Nat} {l : List Nat}
    (hc : Chain data hd l) : ∀ i ∈ l, ∃ nx, data[i]? = some (.Vacant nx) := by
  induction hc with
  | nil => intro i hi; cases hi
  | cons hlook _ ih =>
    intro i hi
    rcases List.mem_cons.mp hi with rfl | hi
    · exact ⟨_, hlook⟩
    · exact ih i hi

theorem chain_mem_lt {data : List (Entry T)} {hd : Option Nat} {l : List Nat}
    (hc : Chain data hd l) : ∀ i ∈ l, i < data.length := by
  intro i hi
  obtain ⟨nx, hnx⟩ := chain_mem_vacant hc i hi
  exact (List.getElem?_eq_some.mp hnx).1

theorem chain_congr {data data2 : List (Entry T)} {hd : Option Nat} {l : List Nat}
    (hc : Chain data hd l) (heq : ∀ i ∈ l, data2[i]? = data[i]?) : Chain data2 hd l := by
  induction hc with
  | nil => exact .nil
  | cons hlook htail ih =>
    refine .cons ?_ (ih ?_)
    · rw [heq _ (by simp), hlook]
    · intro i hi
      exact heq i (List.mem_cons_of_mem _ hi)

theorem chain_ladder {data : List (Entry T)} {hd : Option Nat} {l : List Nat} :
    ∀ (c i : Nat), (∀ j, i ≤ j → j < i + c → data[j]? = some (.Vacant (some (j + 1)))) →
      data[i + c]? = some (.Vacant hd) → Chain data hd l →
      Chain data (some i) (List.range' i (c + 1) ++ l) := by
  intro c
  induction c with
  | zero =>
    intro i _ hlast hc
    exact .cons hlast hc
  | succ c ih =>
    intro i hmid hlast hc
    refine .cons (hmid i le_rfl (by omega)) ?_
    have := ih (i + 1) (fun j hj1 hj2 => hmid j (by omega) (by omega))
      (by rw [show i + 1 + c = i + (c + 1) from by omega]; exact hlast) hc
    simpa using this

theorem chain_some_inv {data : List (Entry T)} {f : Nat} {l : List Nat}
    (hc : Chain data (some f) l) :
    ∃ nx l2, data[f]? = some (.Vacant nx) ∧ Chain data nx l2 ∧ l = f :: l2 := by
  cases hc with
  | cons hl hc => exact ⟨_, _, hl, hc, rfl⟩

theorem fls_tryInsert {a : Arena T} {x : T} {h : Index} {a1 : Arena T}
    (hfls : FreeListSpec a) (ht : try_insert a x = some (.ok (h, a1))) :
    FreeListSpec a1 := by
  obtain ⟨hd, l, hz, hc, hnd, hiff⟩ := hfls
  obtain ⟨hf, h0, nx1, hlook, ha1⟩ := try_insert_ok_dest ht
  rw [get_free_of_zero hz] at hf
  subst hf
  obtain ⟨next0, l2, hlook2, hc2, rfl⟩ := chain_some_inv hc
  rw [hlook] at hlook2
  have hnn : nx1 = next0 := by simpa using hlook2
  subst hnn
  have hlt : h.val < a.data.length := (List.getElem?_eq_some.mp hlook).1
  have hmem : ∀ i ∈ l2, i ≠ 0 := by
    intro i hi
    exact ((hiff i).mpr (List.mem_cons_of_mem _ hi)).1
  have hnotin : h.val ∉ l2 := (List.nodup_cons.mp hnd).1
  refine ⟨nx1, l2, ?_, ?_, (List.nodup_cons.mp hnd).2, ?_⟩
  · rw [ha1, set_free_data]
    refine List.getElem?_set_eq_of_lt _ ?_
    rw [List.length_set]
    omega
  · refine chain_congr hc2 ?_
    intro i hi
    rw [ha1, set_free_data, List.getElem?_set_ne (fun heq => hmem i hi heq.symm),
      List.getElem?_set_ne (fun heq => hnotin (by rw [← heq] at hi; exact hi))]
  · intro i
    by_cases hi0 : i = 0
    · subst hi0
      simp only [ne_eq, not_true_eq_false, false_and, false_iff]
      intro habs
      exact ((hiff 0).mpr (List.mem_cons_of_mem _ habs)).1 rfl
    · by_cases hih : i = h.val
      · subst hih
        constructor
        · rintro ⟨-, nx, hnx⟩
          rw [ha1, set_free_data, List.getElem?_set_ne (by omega),
            List.getElem?_set_eq_of_lt _ hlt] at hnx
          cases hnx
        · intro habs
          exact absurd habs hnotin
      · have hdata : a1.data[i]? = a.data[i]? := by
          rw [ha1, set_free_data, List.getElem?_set_ne (by omega),
            List.getElem?_set_ne (by omega)]
        rw [hdata]
        constructor
        · intro hvac
          rcases List.mem_cons.mp ((hiff i).mp hvac) with rfl | hmem2
          · exact absurd rfl hih
          · exact hmem2
        · intro hmem2
          exact (hiff i).mpr (List.mem_cons_of_mem _ hmem2)

theorem remove_some_cases {a : Arena T} {i : Index} {r : Option T} {a2 : Arena T}
    (h : remove a i = some (r, a2)) :
    (r = none ∧ a2 = a) ∨
      ∃ v, r = some v ∧ a.data[i.val]? = some (.Occupied v) ∧
        a2 = set_free { a with data := a.data.set i.val (.Vacant (get_free a)) }
          (some i.val) := by
  unfold remove at h
  split at h
  · exact absurd h (by simp)
  · next v hlook =>
    right
    obtain ⟨rfl, rfl⟩ : some v = r ∧
        set_free { a with data := a.data.set i.val (.Vacant (get_free a)) } (some i.val) = a2 := by
      simpa [eq_comm] using h
    exact ⟨v, rfl, hlook, rfl⟩
  · next nx hlook =>
    left
    simpa [eq_comm] using h

theorem fls_remove {a : Arena T} {i : Index} {r : Option T} {a2 : Arena T}
    (hfls : FreeListSpec a) (hr : remove a i = some (r, a2)) : FreeListSpec a2 := by
  rcases remove_some_cases hr with ⟨-, rfl⟩ | ⟨v, -, hlook, ha2⟩
  · exact hfls
  · obtain ⟨hd, l, hz, hc, hnd, hiff⟩ := hfls
    have hi0 : i.val ≠ 0 := by
      intro habs
      rw [habs, hz] at hlook
      cases hlook
    have hlt : i.val < a.data.length := (List.getElem?_eq_some.mp hlook).1
    have hnotin : i.val ∉ l := by
      intro habs
      obtain ⟨nx, hnx⟩ := chain_mem_vacant hc _ habs
      rw [hlook] at hnx
      cases hnx
    have hmem0 : ∀ j ∈ l, j ≠ 0 := fun j hj => ((hiff j).mpr hj).1
    refine ⟨some i.val, i.val :: l, ?_, ?_, ?_, ?_⟩
    · rw [ha2, set_free_data]
      refine List.getElem?_set_eq_of_lt _ ?_
      rw [List.length_set]
      omega
    · have hlk : a2.data[i.val]? = some (Entry.Vacant hd) := by
        rw [ha2, set_free_data, List.getElem?_set_ne (by omega),
          List.getElem?_set_eq_of_lt _ hlt]
        rw [get_free_of_zero hz]
      refine .cons hlk ?_
      refine chain_congr hc ?_
      intro j hj
      rw [ha2, set_free_data, List.getElem?_set_ne (fun heq => hmem0 j hj heq.symm),
        List.getElem?_set_ne (fun heq => hnotin (by rw [← heq] at hj; exact hj))]
    · exact List.nodup_cons.mpr ⟨hnotin, hnd⟩
    · intro j
      by_cases hj0 : j = 0
      · subst hj0
        simp only [ne_eq, not_true_eq_false, false_and, false_iff]
        intro habs
        rcases List.mem_cons.mp habs with heq | habs2
        · exact hi0 heq.symm
        · exact hmem0 0 habs2 rfl
      · by_cases hji : j = i.val
        · subst hji
          constructor
          · intro _
            exact List.mem_cons_self _ _
          · intro _
            refine ⟨hj0, get_free a, ?_⟩
            rw [ha2, set_free_data, List.getElem?_set_ne (by omega),
              List.getElem?_set_eq_of_lt _ hlt]
        · have hdata : a2.data[j]? = a.data[j]? := by
            rw [ha2, set_free_data, List.getElem?_set_ne (by omega),
              List.getElem?_set_ne (by omega)]
          rw [hdata]
          constructor
          · intro hvac
            exact List.mem_cons_of_mem _ ((hiff j).mp hvac)
          · intro hmem2
            rcases List.mem_cons.mp hmem2 with heq | hmem3
            · exact absurd heq hji
            · exact (hiff j).mpr hmem3
end Typed

namespace Typed

variable {T : Type}

theorem vecReserve_ge (len cap n : Nat) : cap ≤ vecReserve len cap n := by
  unfold vecReserve
  split
  · exact le_rfl
  · exact le_trans (by omega) (le_max_left _ _)

theorem fls_reserve {a : Arena T} {n : Nat} {ar : Arena T}
    (hfls : FreeListSpec a) (hn : 2 ≤ n) (hr : reserve a n = some ar) :
    FreeListSpec ar := by
  obtain ⟨hd, l, hz, hc, hnd, hiff⟩ := hfls
  obtain ⟨hlen, hcap, hrlen, hdata⟩ := reserve_some_dest hr
  have hfree : get_free a = hd := get_free_of_zero hz
  have hmem0 : ∀ j ∈ l, j ≠ 0 := fun j hj => ((hiff j).mpr hj).1
  have hmemlt : ∀ j ∈ l, j < a.data.length := chain_mem_lt hc
  have hchain : Chain ar.data (some a.data.length)
      (List.range' a.data.length ((n - 2) + 1) ++ l) := by
    apply chain_ladder
    · intro j hj1 hj2
      have hdi := hdata j
      rw [if_neg (by omega), if_neg (by omega), if_neg (by omega), if_pos (by omega)] at hdi
      exact hdi
    · have hdi := hdata (a.data.length + (n - 2))
      rw [if_neg (by omega), if_pos (by omega)] at hdi
      rw [hfree] at hdi
      exact hdi
    · refine chain_congr hc ?_
      intro j hj
      have h0 := hmem0 j hj
      have hlt := hmemlt j hj
      have hdi := hdata j
      rw [if_neg h0, if_neg (by omega), if_pos hlt] at hdi
      exact hdi
  refine ⟨some a.data.length, List.range' a.data.length ((n - 2) + 1) ++ l, ?_, hchain, ?_, ?_⟩
  · have hdi := hdata 0
    rw [if_pos rfl] at hdi
    exact hdi
  · refine List.Nodup.append (List.nodup_range' _ _) hnd ?_
    intro x hx1 hx2
    have hb := List.mem_range'_1.mp hx1
    have hlt := hmemlt x hx2
    omega
  · intro i
    constructor
    · rintro ⟨hi0, nx, hnx⟩
      have hdi := hdata i
      by_cases hil : i = a.data.length + (n - 1) - 1
      · exact List.mem_append_left _ (List.mem_range'_1.mpr (by omega))
      · rw [if_neg hi0, if_neg hil] at hdi
        by_cases hiold : i < a.data.length
        · rw [if_pos hiold] at hdi
          refine List.mem_append_right _ ((hiff i).mp ⟨hi0, nx, ?_⟩)
          rw [← hdi, hnx]
        · rw [if_neg hiold] at hdi
          by_cases himid : i < a.data.length + (n - 1)
          · exact List.mem_append_left _ (List.mem_range'_1.mpr (by omega))
          · rw [if_neg himid] at hdi
            rw [hdi] at hnx
            cases hnx
    · intro hmem
      rcases List.mem_append.mp hmem with hin | hin
      · have hb := List.mem_range'_1.mp hin
        have hi0 : i ≠ 0 := by omega
        refine ⟨hi0, ?_⟩
        have hdi := hdata i
        rw [if_neg hi0] at hdi
        by_cases hil : i = a.data.length + (n - 1) - 1
        · rw [if_pos hil] at hdi
          exact ⟨_, hdi⟩
        · rw [if_neg hil, if_neg (by omega), if_pos (by omega)] at hdi
          exact ⟨_, hdi⟩
      · obtain ⟨hi0, nx, hnx⟩ := (hiff i).mpr hin
        have hlt := hmemlt i hin
        refine ⟨hi0, nx, ?_⟩
        have hdi := hdata i
        rw [if_neg hi0, if_neg (by omega), if_pos hlt] at hdi
        rw [hdi, hnx]

theorem insert_fls {a : Arena T} {x : T} {h : Index} {a1 : Arena T}
    (hfls : FreeListSpec a) (hcap : 17 ≤ a.cap) (hi : insert a x = some (h, a1)) :
    FreeListSpec a1 ∧ 17 ≤ a1.cap := by
  unfold insert at hi
  split at hi
  · next r heq =>
    obtain rfl : r = (h, a1) := by simpa using hi
    refine ⟨fls_tryInsert hfls heq, ?_⟩
    obtain ⟨-, -, nx2, hd2, ha1⟩ := try_insert_ok_dest heq
    rw [ha1]
    exact hcap
  · next it heq =>
    unfold reserve_insert at hi
    split at hi
    · exact absurd hi (by simp)
    · next ar hres =>
      split at hi
      · next r heq2 =>
        obtain rfl : r = (h, a1) := by simpa using hi
        have hfls2 := fls_reserve hfls (by unfold capacity; omega) hres
        refine ⟨fls_tryInsert hfls2 heq2, ?_⟩
        obtain ⟨-, -, nx2, hd2, ha1⟩ := try_insert_ok_dest heq2
        obtain ⟨-, hcap2, -, -⟩ := reserve_some_dest hres
        rw [ha1]
        show 17 ≤ ar.cap
        rw [hcap2]
        exact le_trans hcap (vecReserve_ge _ _ _)
      · exact absurd hi (by simp)
  · exact absurd hi (by simp)

theorem reachInv_applyAOp {a a1 : Arena T} {op : AOp T}
    (hfls : FreeListSpec a) (hcap : 17 ≤ a.cap) (h : applyAOp a op = some a1) :
    FreeListSpec a1 ∧ 17 ≤ a1.cap := by
  cases op with
  | insert x =>
    simp only [applyAOp] at h
    cases hi : insert a x with
    | none => rw [hi] at h; cases h
    | some r =>
      cases r with
      | mk w a2 =>
        rw [hi] at h
        obtain rfl : a2 = a1 := by simpa using h
        exact insert_fls hfls hcap hi
  | tryInsert x =>
    simp only [applyAOp] at h
    split at h
    · next w a2 heq =>
      obtain rfl : a2 = a1 := by simpa using h
      refine ⟨fls_tryInsert hfls heq, ?_⟩
      obtain ⟨-, -, nx2, hd2, ha1⟩ := try_insert_ok_dest heq
      rw [ha1]
      exact hcap
    · next it heq =>
      obtain rfl : a = a1 := by simpa using h
      exact ⟨hfls, hcap⟩
    · cases h
  | remove i =>
    simp only [applyAOp] at h
    cases hrm : remove a i with
    | none => rw [hrm] at h; cases h
    | some r =>
      cases r with
      | mk v a2 =>
        rw [hrm] at h
        obtain rfl : a2 = a1 := by simpa using h
        refine ⟨fls_remove hfls hrm, ?_⟩
        rcases remove_some_cases hrm with ⟨-, rfl⟩ | ⟨w, -, -, ha2⟩
        · exact hcap
        · rw [ha2]
          exact hcap

theorem reachInv_applyAOps {a a2 : Arena T} {ops : List (AOp T)}
    (hfls : FreeListSpec a) (hcap : 17 ≤ a.cap) (h : applyAOps a ops = some a2) :
    FreeListSpec a2 ∧ 17 ≤ a2.cap := by
  induction ops generalizing a with
  | nil =>
    obtain rfl : a = a2 := by simpa [applyAOps] using h
    exact ⟨hfls, hcap⟩
  | cons op ops ih =>
    simp only [applyAOps] at h
    split at h
    · cases h
    · next a1 heq =>
      obtain ⟨h1, h2⟩ := reachInv_applyAOp hfls hcap heq
      exact ih h1 h2 h

theorem with_capacity_reserve (T : Type) (n : Nat) :
    reserve { data := [Entry.Vacant none], cap := 1 } (max n MIN_CAPACITY) =
      some (with_capacity T n) := by
  unfold with_capacity
  split
  · next ar har => exact har
  · next hnone =>
    have := reserve_none_iff.mp hnone
    simp at this

theorem with_capacity_cap (T : Type) (n : Nat) :
    (with_capacity T n).cap = 1 + max n MIN_CAPACITY := by
  obtain ⟨-, hcap, -, -⟩ := reserve_some_dest (with_capacity_reserve T n)
  rw [hcap]
  have h16 : MIN_CAPACITY ≤ max n MIN_CAPACITY := le_max_right _ _
  unfold vecReserve MIN_CAPACITY at *
  simp only [List.length_cons, List.length_nil]
  rw [if_neg (by omega)]
  omega

theorem with_capacity_data (T : Type) (n : Nat) (j : Nat) :
    (with_capacity T n).data[j]? =
      if j = 0 then some (.Vacant (some 1))
      else if j = max n MIN_CAPACITY - 1 then some (.Vacant none)
      else if j < max n MIN_CAPACITY then some (.Vacant (some (j + 1)))
      else none := by
  obtain ⟨-, -, -, hdata⟩ := reserve_some_dest (with_capacity_reserve T n)
  have h16 : MIN_CAPACITY ≤ max n MIN_CAPACITY := le_max_right _ _
  have h16' : 16 ≤ max n MIN_CAPACITY := h16
  have hdi := hdata j
  simp only [List.length_cons, List.length_nil] at hdi
  have hgf : get_free ({ data := [Entry.Vacant none], cap := 1 } : Arena T) = none := rfl
  rw [hgf] at hdi
  by_cases h0 : j = 0
  · rw [if_pos h0] at hdi ⊢
    exact hdi
  · rw [if_neg h0] at hdi ⊢
    by_cases h1 : j = max n MIN_CAPACITY - 1
    · rw [if_pos h1]
      rw [if_pos (by omega), ] at hdi
      exact hdi
    · rw [if_neg h1]
      rw [if_neg (by omega), if_neg (by omega)] at hdi
      by_cases h2 : j < max n MIN_CAPACITY
      · rw [if_pos h2]
        rw [if_pos (by omega)] at hdi
        exact hdi
      · rw [if_neg h2]
        rw [if_neg (by omega)] at hdi
        exact hdi

theorem with_capacity_length (T : Type) (n : Nat) :
    (with_capacity T n).data.length = max n MIN_CAPACITY := by
  obtain ⟨-, -, hlen, -⟩ := reserve_some_dest (with_capacity_reserve T n)
  simp only [List.length_cons, List.length_nil] at hlen
  have h16 : MIN_CAPACITY ≤ max n MIN_CAPACITY := le_max_right _ _
  have h16' : 16 ≤ max n MIN_CAPACITY := h16
  omega

theorem fls_with_capacity (T : Type) (n : Nat) : FreeListSpec (with_capacity T n) := by
  have h16 : MIN_CAPACITY ≤ max n MIN_CAPACITY := le_max_right _ _
  have h16' : 16 ≤ max n MIN_CAPACITY := h16
  have hchain : Chain (with_capacity T n).data (some 1)
      (List.range' 1 ((max n MIN_CAPACITY - 2) + 1) ++ []) := by
    apply chain_ladder
    · intro j hj1 hj2
      rw [with_capacity_data, if_neg (by omega), if_neg (by omega), if_pos (by omega)]
    · rw [with_capacity_data, if_neg (by omega), if_pos (by omega)]
    · exact .nil
  refine ⟨some 1, List.range' 1 ((max n MIN_CAPACITY - 2) + 1) ++ [], ?_, hchain, ?_, ?_⟩
  · rw [with_capacity_data, if_pos rfl]
  · simpa using List.nodup_range' _ _
  · intro i
    rw [with_capacity_data]
    constructor
    · rintro ⟨hi0, nx, hnx⟩
      rw [if_neg hi0] at hnx
      refine List.mem_append_left _ (List.mem_range'_1.mpr ?_)
      by_cases h1 : i = max n MIN_CAPACITY - 1
      · omega
      · rw [if_neg h1] at hnx
        by_cases h2 : i < max n MIN_CAPACITY
        · omega
        · rw [if_neg h2] at hnx
          cases hnx
    · intro hmem
      rcases List.mem_append.mp hmem with hin | hin
      · have hb := List.mem_range'_1.mp hin
        refine ⟨by omega, ?_⟩
        rw [if_neg (by omega)]
        by_cases h1 : i = max n MIN_CAPACITY - 1
        · rw [if_pos h1]
          exact ⟨_, rfl⟩
        · rw [if_neg h1, if_pos (by omega)]
          exact ⟨_, rfl⟩
      · cases hin

end Typed

namespace Typed

variable {T : Type}

theorem modify_get {a : Arena T} {i : Index} {f2 : T → T} {a1 : Arena T}
    (hm : modify a i f2 = some a1) (j : Index) :
    get a1 j = if j.val = i.val then (get a i).map f2 else get a j := by
  obtain ⟨t, hd, ha1⟩ := modify_some_dest hm
  have hlt : i.val < a.data.length := (List.getElem?_eq_some.mp hd).1
  by_cases hij : j.val = i.val
  · rw [if_pos hij]
    have h1 : get a1 j = some (f2 t) := by
      apply get_eq_some_iff.mpr
      rw [ha1]
      show (a.data.set i.val (.Occupied (f2 t)))[j.val]? = _
      rw [hij]
      exact List.getElem?_set_eq_of_lt _ hlt
    rw [h1, get_eq_some_iff.mpr hd]
    rfl
  · rw [if_neg hij]
    apply get_congr
    rw [ha1]
    exact List.getElem?_set_ne (by omega)

theorem modify_zero {a : Arena T} {i : Index} {f2 : T → T} {a1 : Arena T} {nx : Option Nat}
    (hm : modify a i f2 = some a1) (hz : a.data[0]? = some (.Vacant nx)) :
    i.val ≠ 0 ∧ a1.data[0]? = a.data[0]? := by
  obtain ⟨t, hd, ha1⟩ := modify_some_dest hm
  have hi0 : i.val ≠ 0 := by
    intro habs
    rw [habs, hz] at hd
    cases hd
  refine ⟨hi0, ?_⟩
  rw [ha1]
  exact List.getElem?_set_ne (by omega)

end Typed

theorem vidx_ext {v w : VertexIndex} (h : v.val.val = w.val.val) : v = w := by
  rcases v with ⟨⟨a⟩⟩
  rcases w with ⟨⟨b⟩⟩
  simp only at h
  subst h
  rfl

theorem walks_mono {es es2 : Typed.Arena (Edge E)} {d : Direction}
    (hmono : ∀ (j : Typed.Index) (e : Edge E), Typed.get es j = some e → Typed.get es2 j = some e)
    {h : EdgeIndex} {l : List (VertexIndex × VertexIndex × E)}
    (hw : Walks es d h l) : Walks es2 d h l := by
  induction hw with
  | nil => exact .nil
  | cons hget htail ih => exact .cons (hmono _ _ hget) ih

theorem expected_append {ops ops2 : List (GOp V E)} {v : VertexIndex} {d : Direction} :
    expected (ops ++ ops2) v d = expected ops v d ++ expected ops2 v d :=
  List.filterMap_append _ _ _

theorem expected_addVertex {x : V} {v : VertexIndex} {d : Direction} :
    expected [GOp.addVertex (E := E) x] v d = [] := rfl

theorem expected_addEdge_pos {s f : VertexIndex} {x : E} {v : VertexIndex} {d : Direction}
    (h : dirGet d (s, f) = v) :
    expected [GOp.addEdge (V := V) s f x] v d = [(s, f, x)] := by
  simp [expected, h]

theorem expected_addEdge_neg {s f : VertexIndex} {x : E} {v : VertexIndex} {d : Direction}
    (h : dirGet d (s, f) ≠ v) :
    expected [GOp.addEdge (V := V) s f x] v d = [] := by
  simp [expected, h]

theorem expected_mem_endpoint {ops : List (GOp V E)} {v : VertexIndex} {d : Direction}
    {r : VertexIndex × VertexIndex × E} (h : r ∈ expected ops v d) :
    dirGet d (r.1, r.2.1) = v := by
  obtain ⟨op, -, hop⟩ := List.mem_filterMap.mp h
  cases op with
  | addVertex y => cases hop
  | addEdge s f dat =>
    simp only at hop
    split at hop
    · next hcond =>
      obtain rfl : (s, f, dat) = r := by simpa using hop
      exact hcond
    · cases hop

theorem walks_inwalk_mem {es : Typed.Arena (Edge E)} {d : Direction} {h0 : EdgeIndex}
    {l : List (VertexIndex × VertexIndex × E)} {j : Typed.Index} {e : Edge E}
    (hw : Walks es d h0 l) (hiw : InWalk es d h0 j) (hj : Typed.get es j = some e) :
    e.record ∈ l := by
  induction hiw generalizing l with
  | here i =>
    cases hw with
    | cons hget htail =>
      rename_i e1 l1
      have he : e1 = e := by
        rw [hget] at hj
        exact Option.some.inj hj
      subst he
      exact List.mem_cons_self _ _
  | there hget hiw2 ih =>
    rename_i i1 j1 e1
    cases hw with
    | cons hget2 htail =>
      rename_i e3 l3
      have he : e3 = e1 := by
        rw [hget] at hget2
        exact (Option.some.inj hget2).symm
      subst he
      exact List.mem_cons_of_mem _ (ih htail hj)

theorem with_capacity_get_none (T : Type) (n : Nat) (i : Typed.Index) :
    Typed.get (Typed.with_capacity T n) i = none := by
  cases hv : (Typed.with_capacity T n).data[i.val]? with
  | none => exact Typed.get_eq_none_of_oob hv
  | some entry =>
    cases entry with
    | Vacant nx => exact Typed.get_eq_none_of_vacant nx hv
    | Occupied t =>
      rw [Typed.with_capacity_data] at hv
      split_ifs at hv <;> simp at hv

theorem graphInv_intro {V E : Type} {arena : Typed.Arena (Vertex V)}
    {edges : Typed.Arena (Edge E)} {ops : List (GOp V E)}
    (h1 : ∃ nx, arena.data[0]? = some (Typed.Entry.Vacant nx))
    (h2 : ∃ nx, edges.data[0]? = some (Typed.Entry.Vacant nx))
    (h3 : ∀ v : VertexIndex, Typed.get arena v.val = none → ∀ d, expected ops v d = [])
    (h4 : ∀ (v : VertexIndex) (vert : Vertex V) (d : Direction),
      Typed.get arena v.val = some vert →
      Walks edges d (vert.edge d) (expected ops v d).reverse) :
    GraphInv ⟨arena, edges⟩ ops := ⟨h1, h2, h3, h4⟩

theorem ginv_addVertex {V E : Type} {g : Graph V E} {ops : List (GOp V E)} {x : V}
    {g1 : Graph V E} (hinv : GraphInv g ops) (h : applyGOp g (.addVertex x) = some g1) :
    GraphInv g1 (ops ++ [.addVertex x]) := by
  obtain ⟨hz1, hz2, hfresh, hwalks⟩ := hinv
  simp only [applyGOp] at h
  unfold Graph.add_vertex at h
  cases hi : Typed.insert g.arena (Vertex.new x) with
  | none => rw [hi] at h; cases h
  | some r =>
    cases r with
    | mk w arena1 =>
      simp only [hi, Option.map_some'] at h
      obtain rfl := Option.some.inj h
      obtain ⟨hw0, hwnone, hwget, hz1n, hrest⟩ := Typed.insert_some_dest hi
      refine graphInv_intro hz1n hz2 ?_ ?_
      · intro v hv d
        rw [expected_append]
        have hvold : Typed.get g.arena v.val = none := by
          cases hgv : Typed.get g.arena v.val with
          | none => rfl
          | some t =>
            exfalso
            have hv0 : v.val.val ≠ 0 := by
              intro he
              obtain ⟨nx, hnx⟩ := hz1
              have hgn : Typed.get g.arena v.val = none := by
                apply Typed.get_eq_none_of_vacant nx
                rw [he]
                exact hnx
              rw [hgn] at hgv
              cases hgv
            have hvw : v.val.val ≠ w.val := by
              intro he
              have heq : Typed.get g.arena v.val = Typed.get g.arena w := by
                unfold Typed.get
                rw [he]
              rw [heq, hwnone] at hgv
              cases hgv
            have hsame := hrest v.val hv0 hvw
            rw [hv, hgv] at hsame
            cases hsame
        rw [hfresh v hvold d, expected_addVertex]
        rfl
      · intro v vert d hv
        rw [expected_append, expected_addVertex, List.append_nil]
        by_cases hvw : v.val.val = w.val
        · have hveq : Typed.get arena1 v.val = Typed.get arena1 w := by
            unfold Typed.get
            rw [hvw]
          rw [hv, hwget] at hveq
          obtain rfl : vert = Vertex.new x := Option.some.inj hveq
          have hnone : Typed.get g.arena v.val = none := by
            have heq : Typed.get g.arena v.val = Typed.get g.arena w := by
              unfold Typed.get
              rw [hvw]
            rw [heq, hwnone]
          rw [hfresh v hnone d]
          cases d <;> exact Walks.nil
        · have hv0 : v.val.val ≠ 0 := by
            intro he
            obtain ⟨nx, hnx⟩ := hz1n
            have hgn : Typed.get arena1 v.val = none := by
              apply Typed.get_eq_none_of_vacant nx
              rw [he]
              exact hnx
            rw [hv] at hgn
            cases hgn
          have hsame := hrest v.val hv0 hvw
          rw [hv] at hsame
          exact hwalks v vert d hsame.symm

theorem dirGet_out_eq {s f v : VertexIndex} (h : dirGet Direction.Outgoing (s, f) = v) :
    s = v := h

theorem dirGet_in_eq {s f v : VertexIndex} (h : dirGet Direction.Incoming (s, f) = v) :
    f = v := h

theorem expected_addEdge_out {V E : Type} {s f : VertexIndex} {x : E} :
    expected [GOp.addEdge (V := V) s f x] s Direction.Outgoing = [(s, f, x)] :=
  expected_addEdge_pos rfl

theorem expected_addEdge_in {V E : Type} {s f : VertexIndex} {x : E} :
    expected [GOp.addEdge (V := V) s f x] f Direction.Incoming = [(s, f, x)] :=
  expected_addEdge_pos rfl

theorem ginv_addEdge {V E : Type} {g : Graph V E} {ops : List (GOp V E)}
    {s f : VertexIndex} {x : E} {g1 : Graph V E}
    (hinv : GraphInv g ops) (h : applyGOp g (.addEdge s f x) = some g1) :
    GraphInv g1 (ops ++ [.addEdge s f x]) := by
  obtain ⟨hz1, hz2, hfresh, hwalks⟩ := hinv
  simp only [applyGOp] at h
  unfold Graph.add_edge at h
  cases hi : Typed.insert g.edges { vertices := (s, f), next := (⟨none⟩, ⟨none⟩), data := x } with
  | none => rw [hi] at h; cases h
  | some r =>
  cases r with
  | mk idx edges1 =>
  simp only [hi] at h
  cases hgs : Typed.get g.arena s.val with
  | none => rw [hgs] at h; cases h
  | some vs =>
  simp only [hgs] at h
  cases hm1 : Typed.modify g.arena s.val (fun v => { v with edges := (⟨some idx⟩, v.edges.2) }) with
  | none => rw [hm1] at h; cases h
  | some arena1 =>
  simp only [hm1] at h
  cases hgf2 : Typed.get arena1 f.val with
  | none => rw [hgf2] at h; cases h
  | some vf =>
  simp only [hgf2] at h
  cases hm2 : Typed.modify arena1 f.val (fun v => { v with edges := (v.edges.1, ⟨some idx⟩) }) with
  | none => rw [hm2] at h; cases h
  | some arena2 =>
  simp only [hm2] at h
  cases hm3 : Typed.modify edges1 idx (fun e => { e with next := (vs.edges.1, vf.edges.2) }) with
  | none => rw [hm3] at h; cases h
  | some edges2 =>
  simp only [hm3, Option.map_some'] at h
  obtain rfl := Option.some.inj h
  obtain ⟨hidx0, henone, heget, hez, herest⟩ := Typed.insert_some_dest hi
  obtain ⟨nz1, hz1e⟩ := hz1
  obtain ⟨nz2, hz2e⟩ := hz2
  have hm1get := Typed.modify_get hm1
  have hm2get := Typed.modify_get hm2
  have hm3get := Typed.modify_get hm3
  obtain ⟨hs0, hz1a⟩ := Typed.modify_zero hm1 hz1e
  have hz1an : arena1.data[0]? = some (Typed.Entry.Vacant nz1) := by
    rw [hz1a]
    exact hz1e
  obtain ⟨hf0, hz1b⟩ := Typed.modify_zero hm2 hz1an
  have hz1bn : arena2.data[0]? = some (Typed.Entry.Vacant nz1) := by
    rw [hz1b]
    exact hz1an
  obtain ⟨nz2n, hz2n⟩ := hez
  obtain ⟨hidx0b, hz2c⟩ := Typed.modify_zero hm3 hz2n
  have hz2cn : edges2.data[0]? = some (Typed.Entry.Vacant nz2n) := by
    rw [hz2c]
    exact hz2n
  have hE1 : Typed.get edges2 idx =
      some { vertices := (s, f), next := (vs.edges.1, vf.edges.2), data := x } := by
    have he2 := hm3get idx
    rw [if_pos rfl, heget] at he2
    exact he2
  have hEmono : ∀ (j : Typed.Index) (e : Edge E),
      Typed.get g.edges j = some e → Typed.get edges2 j = some e := by
    intro j e hj
    have hj0 : j.val ≠ 0 := by
      intro habs
      have hgn : Typed.get g.edges j = none := by
        apply Typed.get_eq_none_of_vacant nz2
        rw [habs]
        exact hz2e
      rw [hgn] at hj
      cases hj
    have hjidx : j.val ≠ idx.val := by
      intro habs
      have heq : Typed.get g.edges j = Typed.get g.edges idx := by
        unfold Typed.get
        rw [habs]
      rw [heq, henone] at hj
      cases hj
    have he2 := hm3get j
    rw [if_neg hjidx] at he2
    rw [he2, herest j hj0 hjidx]
    exact hj
  have hWmono : ∀ (dd : Direction) (h0 : EdgeIndex) (l : List (VertexIndex × VertexIndex × E)),
      Walks g.edges dd h0 l → Walks edges2 dd h0 l :=
    fun _ _ _ hw => walks_mono hEmono hw
  have hA2get : ∀ (j : Typed.Index), Typed.get arena2 j =
      if j.val = f.val.val then some { vf with edges := (vf.edges.1, ⟨some idx⟩) }
      else if j.val = s.val.val then some { vs with edges := (⟨some idx⟩, vs.edges.2) }
      else Typed.get g.arena j := by
    intro j
    have h2 := hm2get j
    have h1 := hm1get j
    by_cases hjf : j.val = f.val.val
    · rw [if_pos hjf] at h2 ⊢
      rw [hgf2] at h2
      exact h2
    · rw [if_neg hjf] at h2 ⊢
      rw [h2]
      by_cases hjs : j.val = s.val.val
      · rw [if_pos hjs] at h1 ⊢
        rw [hgs] at h1
        exact h1
      · rw [if_neg hjs] at h1 ⊢
        exact h1
  have hvf_cases : (f.val.val = s.val.val ∧ vf = { vs with edges := (⟨some idx⟩, vs.edges.2) }) ∨
      (f.val.val ≠ s.val.val ∧ Typed.get g.arena f.val = some vf) := by
    have h1 := hm1get f.val
    by_cases hfs : f.val.val = s.val.val
    · left
      refine ⟨hfs, ?_⟩
      rw [if_pos hfs, hgs] at h1
      rw [hgf2] at h1
      exact Option.some.inj h1
    · right
      refine ⟨hfs, ?_⟩
      rw [if_neg hfs] at h1
      rw [← h1]
      exact hgf2
  refine graphInv_intro ⟨nz1, hz1bn⟩ ⟨nz2n, hz2cn⟩ ?_ ?_
  · intro v hv d
    replace hv : Typed.get arena2 v.val = none := hv
    rw [expected_append]
    have hAv := hA2get v.val
    rw [hv] at hAv
    by_cases hvf : v.val.val = f.val.val
    · rw [if_pos hvf] at hAv
      cases hAv
    · rw [if_neg hvf] at hAv
      by_cases hvs : v.val.val = s.val.val
      · rw [if_pos hvs] at hAv
        cases hAv
      · rw [if_neg hvs] at hAv
        have hne : dirGet d (s, f) ≠ v := by
          cases d with
          | Outgoing =>
            intro he
            exact hvs (congrArg (fun w : VertexIndex => w.val.val) he).symm
          | Incoming =>
            intro he
            exact hvf (congrArg (fun w : VertexIndex => w.val.val) he).symm
        rw [hfresh v hAv.symm d, expected_addEdge_neg hne]
        rfl
  · intro v vert d hv
    replace hv : Typed.get arena2 v.val = some vert := hv
    rw [expected_append]
    have hAv := hA2get v.val
    rw [hv] at hAv
    by_cases hvf : v.val.val = f.val.val
    · rw [if_pos hvf] at hAv
      obtain rfl : vert = { vf with edges := (vf.edges.1, ⟨some idx⟩) } := Option.some.inj hAv
      obtain rfl : f = v := vidx_ext hvf.symm
      rcases hvf_cases with ⟨hfs, rfl⟩ | ⟨hfs, hgfold⟩
      · obtain rfl : f = s := vidx_ext hfs
        cases d with
        | Outgoing =>
          rw [expected_addEdge_out]
          simp only [List.reverse_append, List.reverse_cons, List.reverse_nil,
            List.nil_append, List.singleton_append]
          exact Walks.cons hE1 (hWmono _ _ _ (hwalks f vs .Outgoing hgs))
        | Incoming =>
          rw [expected_addEdge_in]
          simp only [List.reverse_append, List.reverse_cons, List.reverse_nil,
            List.nil_append, List.singleton_append]
          exact Walks.cons hE1 (hWmono _ _ _ (hwalks f vs .Incoming hgs))
      · cases d with
        | Outgoing =>
          have hne : dirGet Direction.Outgoing (s, f) ≠ f := fun he =>
            hfs (congrArg (fun w : VertexIndex => w.val.val) (dirGet_out_eq he)).symm
          rw [expected_addEdge_neg hne, List.append_nil]
          exact hWmono _ _ _ (hwalks f vf .Outgoing hgfold)
        | Incoming =>
          rw [expected_addEdge_in]
          simp only [List.reverse_append, List.reverse_cons, List.reverse_nil,
            List.nil_append, List.singleton_append]
          exact Walks.cons hE1 (hWmono _ _ _ (hwalks f vf .Incoming hgfold))
    · rw [if_neg hvf] at hAv
      by_cases hvs : v.val.val = s.val.val
      · rw [if_pos hvs] at hAv
        obtain rfl : vert = { vs with edges := (⟨some idx⟩, vs.edges.2) } := Option.some.inj hAv
        obtain rfl : s = v := vidx_ext hvs.symm
        cases d with
        | Outgoing =>
          rw [expected_addEdge_out]
          simp only [List.reverse_append, List.reverse_cons, List.reverse_nil,
            List.nil_append, List.singleton_append]
          exact Walks.cons hE1 (hWmono _ _ _ (hwalks s vs .Outgoing hgs))
        | Incoming =>
          have hne : dirGet Direction.Incoming (s, f) ≠ s := fun he =>
            hvf (congrArg (fun w : VertexIndex => w.val.val) (dirGet_in_eq he)).symm
          rw [expected_addEdge_neg hne, List.append_nil]
          exact hWmono _ _ _ (hwalks s vs .Incoming hgs)
      · rw [if_neg hvs] at hAv
        have hne : dirGet d (s, f) ≠ v := by
          cases d with
          | Outgoing =>
            intro he
            exact hvs (congrArg (fun w : VertexIndex => w.val.val) (dirGet_out_eq he)).symm
          | Incoming =>
            intro he
            exact hvf (congrArg (fun w : VertexIndex => w.val.val) (dirGet_in_eq he)).symm
        rw [expected_addEdge_neg hne, List.append_nil]
        exact hWmono _ _ _ (hwalks v vert d hAv.symm)

theorem ginv_applyGOp {V E : Type} {g : Graph V E} {ops : List (GOp V E)} {op : GOp V E}
    {g1 : Graph V E} (hinv : GraphInv g ops) (h : applyGOp g op = some g1) :
    GraphInv g1 (ops ++ [op]) := by
  cases op with
  | addVertex x => exact ginv_addVertex hinv h
  | addEdge s f x => exact ginv_addEdge hinv h

theorem ginv_applyGOps {V E : Type} {g g2 : Graph V E} {hist ops : List (GOp V E)}
    (hinv : GraphInv g hist) (h : applyGOps g ops = some g2) :
    GraphInv g2 (hist ++ ops) := by
  induction ops generalizing g hist with
  | nil =>
    obtain rfl : g = g2 := by simpa [applyGOps] using h
    rw [List.append_nil]
    exact hinv
  | cons op ops ih =>
    simp only [applyGOps] at h
    split at h
    · cases h
    · next g1 heq =>
      have h2 := ih (ginv_applyGOp hinv heq) h
      rw [List.append_assoc] at h2
      exact h2

theorem ginv_init (V E : Type) (cap : Nat) : GraphInv (Graph.with_capacity V E cap) [] := by
  refine graphInv_intro ⟨some 1, ?_⟩ ⟨some 1, ?_⟩ ?_ ?_
  · rw [Typed.with_capacity_data]
    rfl
  · rw [Typed.with_capacity_data]
    rfl
  · intro v hv d
    rfl
  · intro v vert d hv
    rw [with_capacity_get_none] at hv
    cases hv

namespace Typed

variable {T : Type}

theorem chainF_none {data : List (Entry T)} (fuel : Nat) : chainF data fuel none = [] := by
  cases fuel <;> rfl

theorem chain_chainF {data : List (Entry T)} {hd : Option Nat} {l : List Nat}
    (hc : Chain data hd l) : ∀ fuel, l.length ≤ fuel → chainF data fuel hd = l := by
  induction hc with
  | nil => intro fuel _; exact chainF_none fuel
  | cons hlook htail ih =>
    intro fuel hfuel
    cases fuel with
    | zero => simp at hfuel
    | succ f =>
      show chainF data (f + 1) (some _) = _
      simp only [chainF, hlook]
      rw [ih f (by simp at hfuel; omega)]

theorem with_capacity_chain (T : Type) (n : Nat) :
    Chain (with_capacity T n).data (some 1) (List.range' 1 (max n MIN_CAPACITY - 1)) := by
  have h16 : MIN_CAPACITY ≤ max n MIN_CAPACITY := le_max_right _ _
  have h16n : 16 ≤ max n MIN_CAPACITY := h16
  have hc : Chain (with_capacity T n).data (some 1)
      (List.range' 1 ((max n MIN_CAPACITY - 2) + 1) ++ []) := by
    apply chain_ladder
    · intro j hj1 hj2
      rw [with_capacity_data, if_neg (by omega), if_neg (by omega), if_pos (by omega)]
    · rw [with_capacity_data, if_neg (by omega), if_pos (by omega)]
    · exact .nil
  rw [List.append_nil, show (max n MIN_CAPACITY - 2) + 1 = max n MIN_CAPACITY - 1 from by omega]
    at hc
  exact hc

theorem freeChainList_with_capacity (T : Type) (n : Nat) :
    freeChainList (with_capacity T n) = List.range' 1 (max n MIN_CAPACITY - 1) := by
  have h16 : MIN_CAPACITY ≤ max n MIN_CAPACITY := le_max_right _ _
  have h16n : 16 ≤ max n MIN_CAPACITY := h16
  unfold freeChainList
  have hgf : get_free (with_capacity T n) = some 1 := by
    apply get_free_of_zero
    rw [with_capacity_data, if_pos rfl]
  rw [hgf]
  apply chain_chainF (with_capacity_chain T n)
  rw [List.length_range', with_capacity_length]
  omega

theorem corruption_try_insert {a : Arena T} {x : T} {f : Nat} {v : T}
    (hf : get_free a = some f) (hocc : a.data[f]? = some (.Occupied v)) :
    try_insert a x = none := by
  by_cases h0 : f = 0
  · subst h0
    simp [try_insert, hf]
  · simp [try_insert, hf, h0, hocc]

theorem fls_no_corruption {a : Arena T} (hfls : FreeListSpec a) : ¬ corruptionPanic a := by
  obtain ⟨hd, l, hz, hc, hnd, hiff⟩ := hfls
  rintro ⟨f, v, hf, hocc⟩
  rw [get_free_of_zero hz] at hf
  subst hf
  obtain ⟨nx, l2, hlook, -, -⟩ := chain_some_inv hc
  rw [hlook] at hocc
  cases hocc

theorem fls_try_insert_ne_none {a : Arena T} (hfls : FreeListSpec a) (x : T) :
    try_insert a x ≠ none := by
  obtain ⟨hd, l, hz, hc, hnd, hiff⟩ := hfls
  have hgf : get_free a = hd := get_free_of_zero hz
  cases hc with
  | nil =>
    rw [try_insert_err_intro x hgf]
    simp
  | cons hlook htail =>
    rename_i i nx l2
    have hi0 : i ≠ 0 := ((hiff i).mpr (List.mem_cons_self _ _)).1
    rw [try_insert_ok_intro hgf hi0 hlook]
    simp

theorem reserve_no_corruption {a : Arena T} {n : Nat} {ar : Arena T}
    (hr : reserve a n = some ar) : ¬ corruptionPanic ar := by
  obtain ⟨hlen, hcap, hrlen, hdata⟩ := reserve_some_dest hr
  rintro ⟨f, v, hf, hocc⟩
  have hz := hdata 0
  rw [if_pos rfl] at hz
  have hfl : f = a.data.length := by
    rw [get_free_of_zero hz] at hf
    exact (Option.some.inj hf).symm
  subst hfl
  have hdf := hdata a.data.length
  rw [hocc] at hdf
  by_cases hlast : a.data.length = a.data.length + (n - 1) - 1
  · rw [if_neg hlen, if_pos hlast] at hdf
    cases hdf
  · rw [if_neg hlen, if_neg hlast, if_neg (by omega)] at hdf
    by_cases hmid : a.data.length < a.data.length + (n - 1)
    · rw [if_pos hmid] at hdf
      cases hdf
    · rw [if_neg hmid] at hdf
      cases hdf

end Typed

namespace Gen

variable {T : Type}

theorem try_insert_full {a : Arena T} (x : T) (hf : next_free a = none) :
    try_insert a x = some (none, a) := by
  unfold try_insert
  rw [hf]

theorem corrupt_head_try_insert {a : Arena T} {x : T} {f : Nat} {g : Nat} {v : T}
    (hf : next_free a = some f) (hocc : a.data[f]? = some (.Occupied g v)) :
    try_insert a x = none := by
  by_cases h0 : f = 0
  · subst h0
    simp [try_insert, hf]
  · simp [try_insert, hf, h0, hocc]

end Gen

/-! The claims. -/

/-- C1: Arena round-trip.  For every arena state and value x, if insert(x)
returns handle h, then get(h) returns the value, a subsequent remove(h)
returns it again, and after that removal get(h) returns None. -/
theorem arena_roundtrip {T : Type} {a : Typed.Arena T} {x : T} {h : Typed.Index}
    {a1 : Typed.Arena T} (hi : Typed.insert a x = some (h, a1)) :
    Typed.get a1 h = some x ∧
      ∃ a2, Typed.remove a1 h = some (some x, a2) ∧ Typed.get a2 h = none := by
  obtain ⟨h0, -, hget, -, -⟩ := Typed.insert_some_dest hi
  exact Typed.insert_roundtrip_core h0 (Typed.get_eq_some_iff.mp hget)

/-- C1 witness: the round trip at a concrete insertion of 42. -/
theorem arena_roundtrip_witness :
    Typed.get a1W ⟨1⟩ = some 42 ∧
      ∃ a2, Typed.remove a1W ⟨1⟩ = some (some 42, a2) ∧ Typed.get a2 ⟨1⟩ = none :=
  arena_roundtrip (a := Typed.with_capacity Nat 16) (by rfl)

/-- C5: Free-list invariant preservation.  In every arena state reachable from
with_capacity n by insert, try_insert, and remove operations, following next
pointers from slot 0's head visits every currently vacant slot other than
slot 0 exactly once and terminates at None, with no cycles. -/
theorem free_list_invariant_reachable {T : Type} (n : Nat) (ops : List (Typed.AOp T))
    (a : Typed.Arena T) (h : Typed.applyAOps (Typed.with_capacity T n) ops = some a) :
    Typed.FreeListSpec a := by
  have hcap : 17 ≤ (Typed.with_capacity T n).cap := by
    rw [Typed.with_capacity_cap]
    have h16 : Typed.MIN_CAPACITY ≤ max n Typed.MIN_CAPACITY := le_max_right _ _
    have h16n : 16 ≤ max n Typed.MIN_CAPACITY := h16
    omega
  exact (Typed.reachInv_applyAOps (Typed.fls_with_capacity T n) hcap h).1

/-- C5 witness: the invariant at the state reached by one insert and one
remove on a fresh 16-capacity arena. -/
theorem free_list_invariant_reachable_witness : Typed.FreeListSpec a5W :=
  free_list_invariant_reachable 16 [Typed.AOp.insert 5, Typed.AOp.remove ⟨1⟩] a5W (by rfl)

/-- C4 counterexample: the generational try_insert on a full arena discards
the rejected value instead of returning it; rejecting 5 and rejecting 7
produce the identical result some (none, unchanged arena), which carries no
value, so the caller cannot recover what was rejected. -/
theorem gen_try_insert_drops_value :
    Gen.try_insert gFullW 5 = some (none, gFullW) ∧
      Gen.try_insert gFullW 7 = some (none, gFullW) := ⟨rfl, rfl⟩

/-- C4 (amended): on an arena whose free list is empty, the typed try_insert
returns Err carrying the value back and leaves the arena unchanged with no
growth; the generational try_insert returns None and leaves the arena
unchanged with no growth, but discards the value rather than returning it. -/
theorem try_insert_full_no_mutation {T : Type} :
    (∀ (a : Typed.Arena T) (x : T), Typed.get_free a = none →
      Typed.try_insert a x = some (.error x)) ∧
    (∀ (a : Gen.Arena T) (x : T), Gen.next_free a = none →
      Gen.try_insert a x = some (none, a)) :=
  ⟨fun _ x hf => Typed.try_insert_err_intro x hf, fun _ x hf => Gen.try_insert_full x hf⟩

/-- C4 witness: both rejection behaviours at concrete full arenas. -/
theorem try_insert_full_no_mutation_witness :
    Typed.try_insert tFullW 5 = some (.error 5) ∧
      Gen.try_insert gFullW 6 = some (none, gFullW) :=
  ⟨(try_insert_full_no_mutation (T := Nat)).1 tFullW 5 (by rfl),
   (try_insert_full_no_mutation (T := Nat)).2 gFullW 6 (by rfl)⟩

/-- C3 (the code evaluated at the failing input): in the generational arena,
insert 5 into a fresh arena (slot 1, generation 0, handle value 1), remove it
through the spec-modelled remove, then insert 7; the slot is reused, the very
same handle value 1 is reissued, and get with the original handle returns
Some 7 — not None as the claim requires.  Entry::Vacant carries no generation
and try_insert stamps generation 0 unconditionally, so the stale handle is
indistinguishable from the fresh one. -/
theorem gen_stale_handle_bug :
    Gen.with_capacity Nat 16 = some g3a ∧
    Gen.try_insert g3a 5 = some (some ⟨1⟩, g3b) ∧
    Gen.get g3b ⟨1⟩ = some 5 ∧
    Gen.remove g3b ⟨1⟩ = some (5, g3c) ∧
    Gen.try_insert g3c 7 = some (some ⟨1⟩, g3d) ∧
    Gen.get g3d ⟨1⟩ = some 7 :=
  ⟨rfl, rfl, rfl, rfl, rfl, rfl⟩

/-- C6: Double-remove atomicity.  After remove(h) has returned Some(value), a
second remove(h) with no intervening reuse returns None and leaves the arena
unchanged; in general remove on a vacant slot returns None and returns the
arena exactly as it was. -/
theorem remove_vacant_noop {T : Type} (a : Typed.Arena T) (h : Typed.Index) :
    (∀ (v : T) (a2 : Typed.Arena T), Typed.remove a h = some (some v, a2) →
      Typed.remove a2 h = some (none, a2)) ∧
    (∀ nx, a.data[h.val]? = some (Typed.Entry.Vacant nx) →
      Typed.remove a h = some (none, a)) := by
  constructor
  · intro v a2 hr
    obtain ⟨hocc, ha2⟩ := Typed.remove_some_dest hr
    have hlt : h.val < a.data.length := (List.getElem?_eq_some.mp hocc).1
    by_cases h0 : h.val = 0
    · refine Typed.remove_vacant (some h.val) ?_
      rw [ha2, Typed.set_free_data, h0]
      refine List.getElem?_set_eq_of_lt _ ?_
      simp only [List.length_set]
      omega
    · refine Typed.remove_vacant (Typed.get_free a) ?_
      rw [ha2, Typed.set_free_data, List.getElem?_set_ne (by omega)]
      exact List.getElem?_set_eq_of_lt _ hlt
  · intro nx hv
    exact Typed.remove_vacant nx hv

/-- C6 witness: double remove of slot 1 after a concrete insert, and a remove
of the vacant slot 2. -/
theorem remove_vacant_noop_witness :
    Typed.remove c6R ⟨1⟩ = some (none, c6R) ∧
      Typed.remove a1W ⟨2⟩ = some (none, a1W) :=
  ⟨(remove_vacant_noop a1W ⟨1⟩).1 42 c6R (by rfl),
   (remove_vacant_noop a1W ⟨2⟩).2 (some 3) (by rfl)⟩

/-- C7 counterexample: with_capacity 16 links only 15 usable slots on its
initial free list, not at least max(16, MIN_CAPACITY) = 16 as the claim
states: reserve appends one entry fewer than the requested count. -/
theorem with_capacity_links_fifteen :
    Typed.freeChainList (Typed.with_capacity Nat 16) =
      [1, 2, 3, 4, 5, 6, 7, 8, 9, 10, 11, 12, 13, 14, 15] ∧
    ¬ 16 ≤ (Typed.freeChainList (Typed.with_capacity Nat 16)).length :=
  ⟨by rfl, by decide⟩

/-- C7 (amended): with_capacity n gives capacity exactly max n MIN_CAPACITY,
and its initial free list links exactly max n MIN_CAPACITY - 1 usable slots
in ascending order starting at slot 1 and terminated by None; insert never
issues slot 0 as a handle. -/
theorem with_capacity_contract (T : Type) (n : Nat) :
    Typed.capacity (Typed.with_capacity T n) = max n Typed.MIN_CAPACITY ∧
    Typed.get_free (Typed.with_capacity T n) = some 1 ∧
    Typed.freeChainList (Typed.with_capacity T n) =
      List.range' 1 (max n Typed.MIN_CAPACITY - 1) ∧
    ∀ (a : Typed.Arena T) (x : T) (h : Typed.Index) (a1 : Typed.Arena T),
      Typed.insert a x = some (h, a1) → h.val ≠ 0 := by
  refine ⟨?_, ?_, Typed.freeChainList_with_capacity T n,
    fun a x h a1 hi => (Typed.insert_some_dest hi).1⟩
  · unfold Typed.capacity
    rw [Typed.with_capacity_cap]
    omega
  · apply Typed.get_free_of_zero
    rw [Typed.with_capacity_data, if_pos rfl]

/-- C7 witness: the amended contract at n = 20 and a concrete insert issuing
slot 1. -/
theorem with_capacity_contract_witness :
    Typed.capacity (Typed.with_capacity Nat 20) = max 20 Typed.MIN_CAPACITY ∧
    Typed.get_free (Typed.with_capacity Nat 20) = some 1 ∧
    Typed.freeChainList (Typed.with_capacity Nat 20) =
      List.range' 1 (max 20 Typed.MIN_CAPACITY - 1) ∧
    (⟨1⟩ : Typed.Index).val ≠ 0 := by
  obtain ⟨h1, h2, h3, h4⟩ := with_capacity_contract Nat 20
  exact ⟨h1, h2, h3, h4 (Typed.with_capacity Nat 20) 3 ⟨1⟩ c7B (by rfl)⟩

/-- C8: Corruption is fatal and unreachable under the free-list invariant.
An Occupied entry at the free-list head makes try_insert abort (modelled as
none) rather than return a recoverable Err/None, in both arenas; under
FreeListSpec the corruption state is impossible, try_insert never aborts at
all, and the arena produced by any successful reserve (insert's growth path)
is never in the corruption state either, so no call to insert or try_insert
can reach the panic branch from an invariant-respecting state. -/
theorem corruption_panic_contract {T : Type} :
    (∀ (a : Typed.Arena T) (x : T) (f : Nat) (v : T), Typed.get_free a = some f →
      a.data[f]? = some (Typed.Entry.Occupied v) → Typed.try_insert a x = none) ∧
    (∀ (a : Gen.Arena T) (x : T) (f g : Nat) (v : T), Gen.next_free a = some f →
      a.data[f]? = some (Gen.Entry.Occupied g v) → Gen.try_insert a x = none) ∧
    (∀ a : Typed.Arena T, Typed.FreeListSpec a → ¬ Typed.corruptionPanic a) ∧
    (∀ (a : Typed.Arena T) (x : T), Typed.FreeListSpec a → Typed.try_insert a x ≠ none) ∧
    (∀ (a ar : Typed.Arena T) (n : Nat), Typed.reserve a n = some ar →
      ¬ Typed.corruptionPanic ar) :=
  ⟨fun _ _ _ _ hf ho => Typed.corruption_try_insert hf ho,
   fun _ _ _ _ _ hf ho => Gen.corrupt_head_try_insert hf ho,
   fun _ h => Typed.fls_no_corruption h,
   fun _ x h => Typed.fls_try_insert_ne_none h x,
   fun _ _ _ h => Typed.reserve_no_corruption h⟩

/-- C8 witness: the contract at concrete corrupted and well-formed arenas. -/
theorem corruption_panic_contract_witness :
    Typed.try_insert aBadW 0 = none ∧
    Gen.try_insert gBadW 0 = none ∧
    ¬ Typed.corruptionPanic (Typed.with_capacity Nat 16) ∧
    Typed.try_insert (Typed.with_capacity Nat 16) 5 ≠ none ∧
    ¬ Typed.corruptionPanic aRW := by
  obtain ⟨h1, h2, h3, h4, h5⟩ := corruption_panic_contract (T := Nat)
  exact ⟨h1 aBadW 0 1 9 (by rfl) (by rfl),
         h2 gBadW 0 1 0 9 (by rfl) (by rfl),
         h3 _ (Typed.fls_with_capacity Nat 16),
         h4 _ 5 (Typed.fls_with_capacity Nat 16),
         h5 (Typed.with_capacity Nat 16) aRW 16 (by rfl)⟩

/-- C2: Graph adjacency walk correctness and LIFO order.  For every graph
reached from with_capacity by a sequence of add_vertex and add_edge
operations, walking a live vertex v's list for a direction d — start at the
vertex's head handle and follow each edge's next link for d until the link is
empty, which is what Walks expresses — visits exactly the edges added with v
in that role, in reverse insertion order, and each visited edge's record
carries the endpoint pair (from, to) and the data exactly as passed to
add_edge. -/
theorem graph_adjacency_walk {V E : Type} (cap : Nat) (ops : List (GOp V E))
    (g : Graph V E) (h : applyGOps (Graph.with_capacity V E cap) ops = some g)
    (v : VertexIndex) (vert : Vertex V) (d : Direction)
    (hv : Typed.get g.arena v.val = some vert) :
    Walks g.edges d (vert.edge d) (expected ops v d).reverse := by
  have hinv := ginv_applyGOps (ginv_init V E cap) h
  rw [List.nil_append] at hinv
  exact hinv.2.2.2 v vert d hv

/-- C2 witness: the walk of vertex 1's Outgoing list in the concrete graph
gW, which emits exactly the reversed expected records of opsW. -/
theorem graph_adjacency_walk_witness :
    Walks gW.edges Direction.Outgoing (vertW.edge Direction.Outgoing)
      (expected opsW ⟨⟨1⟩⟩ Direction.Outgoing).reverse :=
  graph_adjacency_walk 16 opsW gW (by rfl) ⟨⟨1⟩⟩ vertW Direction.Outgoing (by rfl)

/-- C9: Edge-endpoint invariant.  In every reachable graph, every edge
reachable by walking a live vertex v's list for direction d has its endpoint
for that direction equal to v: its source (vertices[0]) for an Outgoing walk,
its destination (vertices[1]) for an Incoming walk. -/
theorem walk_endpoint_invariant {V E : Type} (cap : Nat) (ops : List (GOp V E))
    (g : Graph V E) (h : applyGOps (Graph.with_capacity V E cap) ops = some g)
    (v : VertexIndex) (vert : Vertex V) (d : Direction)
    (hv : Typed.get g.arena v.val = some vert) (j : Typed.Index) (e : Edge E)
    (hiw : InWalk g.edges d (vert.edge d) j) (hj : Typed.get g.edges j = some e) :
    e.vertex d = v := by
  have hinv := ginv_applyGOps (ginv_init V E cap) h
  rw [List.nil_append] at hinv
  have hw := hinv.2.2.2 v vert d hv
  have hmem := walks_inwalk_mem hw hiw hj
  rw [List.mem_reverse] at hmem
  have hend := expected_mem_endpoint hmem
  cases d with
  | Outgoing => exact hend
  | Incoming => exact hend

/-- C9 witness: the edge reached from vertex 1's Outgoing head in gW has
source endpoint 1. -/
theorem walk_endpoint_invariant_witness : eW.vertex Direction.Outgoing = ⟨⟨1⟩⟩ :=
  walk_endpoint_invariant 16 opsW gW (by rfl) ⟨⟨1⟩⟩ vertW Direction.Outgoing (by rfl)
    ⟨1⟩ eW (by exact InWalk.here ⟨1⟩) (by rfl)

/-- C10: In the typed (non-generational) arena the graph is built on, slot
reuse is observable through stale handles: whenever an insert issues handle h,
get with (the bitwise-identical old copy of) h returns the new occupant; and
after insert(x) = h and a successful remove(h), the very next insert(y) pops
h's slot from the free list, reissues the same handle h, and get(h) then
returns Some(y) — there is no generation check to make it None. -/
theorem typed_stale_handle_aliasing {T : Type} :
    (∀ (b : Typed.Arena T) (y : T) (h : Typed.Index) (a3 : Typed.Arena T),
      Typed.insert b y = some (h, a3) → Typed.get a3 h = some y) ∧
    (∀ (a : Typed.Arena T) (x y : T) (h : Typed.Index) (a1 : Typed.Arena T) (v : T)
      (a2 : Typed.Arena T), Typed.insert a x = some (h, a1) →
      Typed.remove a1 h = some (some v, a2) →
      ∃ a3, Typed.insert a2 y = some (h, a3) ∧ Typed.get a3 h = some y) := by
  constructor
  · intro b y h a3 hi
    exact (Typed.insert_some_dest hi).2.2.1
  · intro a x y h a1 v a2 hi hr
    obtain ⟨h0, -, -, -, -⟩ := Typed.insert_some_dest hi
    obtain ⟨hocc, ha2⟩ := Typed.remove_some_dest hr
    have hlt : h.val < a1.data.length := (List.getElem?_eq_some.mp hocc).1
    have hz2 : a2.data[0]? = some (Typed.Entry.Vacant (some h.val)) := by
      rw [ha2, Typed.set_free_data]
      refine List.getElem?_set_eq_of_lt _ ?_
      simp only [List.length_set]
      omega
    have hvac2 : a2.data[h.val]? = some (Typed.Entry.Vacant (Typed.get_free a1)) := by
      rw [ha2, Typed.set_free_data, List.getElem?_set_ne (by omega)]
      exact List.getElem?_set_eq_of_lt _ hlt
    have hins := Typed.try_insert_to_insert
      (Typed.try_insert_ok_intro (x := y) (Typed.get_free_of_zero hz2) h0 hvac2)
    exact ⟨_, hins, (Typed.insert_some_dest hins).2.2.1⟩

/-- C10 witness: insert 42 (slot 1), remove it, insert 77: handle 1 is
reissued and the stale handle reads 77. -/
theorem typed_stale_handle_aliasing_witness :
    Typed.get a1W ⟨1⟩ = some 42 ∧
      ∃ a3, Typed.insert c6R 77 = some (⟨1⟩, a3) ∧ Typed.get a3 ⟨1⟩ = some 77 :=
  ⟨(typed_stale_handle_aliasing (T := Nat)).1 (Typed.with_capacity Nat 16) 42 ⟨1⟩ a1W (by rfl),
   (typed_stale_handle_aliasing (T := Nat)).2 (Typed.with_capacity Nat 16) 42 77 ⟨1⟩ a1W 42 c6R
     (by rfl) (by rfl)⟩
